import Mathlib

/-!
# YASK: grid halo bookkeeping, index vectors and scan descriptors

A shallow embedding of `src/compiler/lib/Grid.hpp` (class `Grid`) and of
`src/kernel/lib/yask.hpp` (classes `Indices` and `ScanIndices`), followed by the
properties established about them.

Conventions of the embedding:

* `std::map<K,V>` is a sequence of key/value entries (`StdMap`); iteration visits
  the entries in sequence order, and the test `count(k)` followed by `at(k)` is a
  match on `find k`.  A `std::map` never holds a key twice; where a property
  depends on that, it is assumed explicitly (`StdMap.uniqueKeys`,
  `HaloMap.wellFormed`).  The properties hold for every order of the entries, in
  particular for the key order in which a `std::map` is iterated.
* `int` and `idx_t` values are mathematical integers; the one sum of the code,
  in `Indices::addElements`, wraps around at the width of `idx_t`.
* a C array or vector is read only inside its bounds; the defensive branches of
  the model for a position outside them are never reached.
* an `assert` that fails is the result `none`.
* member functions that are declared in the headers but defined in files that are
  not among the sources are modelled from the specification and marked so.
-/

namespace yask

/-! ## Containers -/

/-- First value stored under key `k` in a sequence of key/value entries. -/
def lookupL {K V : Type} [DecidableEq K] (k : K) : List (K × V) → Option V
  | [] => none
  | e :: r => if e.1 = k then some e.2 else lookupL k r

/-- Model of `std::map<K,V>`: the entries in iteration order. -/
structure StdMap (K V : Type) where
  entries : List (K × V)
deriving DecidableEq

/-- The keys of a map, in iteration order. -/
def StdMap.keys {K V : Type} (m : StdMap K V) : List K := m.entries.map Prod.fst

/-- Representation invariant of `std::map`: no key occurs twice. -/
def StdMap.uniqueKeys {K V : Type} (m : StdMap K V) : Prop := m.keys.Nodup

instance {K V : Type} [DecidableEq K] (m : StdMap K V) : Decidable m.uniqueKeys :=
  inferInstanceAs (Decidable m.keys.Nodup)

/-- The value stored under `k` (`std::map::at` without the exception), if any. -/
def StdMap.find {K V : Type} [DecidableEq K] (m : StdMap K V) (k : K) : Option V :=
  lookupL k m.entries

/-- Replace the first value stored under key `k` by `f (some v)`; when `k` is absent,
append the entry `(k, f none)`. -/
def modifyL {K V : Type} [DecidableEq K] (k : K) (f : Option V → V) : List (K × V) → List (K × V)
  | [] => [(k, f none)]
  | e :: r => if e.1 = k then (e.1, f (some e.2)) :: r else e :: modifyL k f r

/-- The statement `m[k] = f(m[k])`: `std::map::operator[]` default-constructs the
value (`dflt`) when the key is absent.  A new key is put at the end of the
sequence; no property below depends on where it is put. -/
def StdMap.update {K V : Type} [DecidableEq K] (m : StdMap K V) (k : K) (dflt : V)
    (f : V → V) : StdMap K V :=
  ⟨modifyL k (fun o => f (o.getD dflt)) m.entries⟩

/-- Modelled from the spec: `IntTuple` (`Tuple<int>`), whose header is not among
the sources: "a per-dimension tuple", i.e. an ordered sequence of named integer
values. -/
structure IntTuple where
  _q : List (String × Int)
deriving DecidableEq

/-- The dimension names of a tuple, in order. -/
def IntTuple.getDimNames (t : IntTuple) : List String := t._q.map Prod.fst

/-- Modelled from the spec: `Tuple::lookup(dim)`: the value of dimension `dim`, or
null (`none`) when the tuple has no such dimension. -/
def IntTuple.lookup (t : IntTuple) (dim : String) : Option Int := lookupL dim t._q

/-- Modelled from the spec: `Tuple::addDimBack(dim, val)`: append a dimension. -/
def IntTuple.addDimBack (t : IntTuple) (dim : String) (val : Int) : IntTuple :=
  ⟨t._q ++ [(dim, val)]⟩

/-- Modelled from the spec: `Tuple::makeUnionWith(rhs)` ("the union ... of the
per-dimension tuples"): a copy of this tuple to which every dimension of `rhs`
that it lacks is appended with the value it has in `rhs`. -/
def IntTuple.makeUnionWith (t rhs : IntTuple) : IntTuple :=
  rhs._q.foldl (fun u i => if (u.lookup i.1).isSome then u else u.addDimBack i.1 i.2) t

/-- Modelled from the spec: `Tuple::maxElements(rhs, false)` ("combined by taking
the maximum in each dimension"): every dimension of this tuple that `rhs` also
has gets the larger of the two values; the other dimensions keep their value. -/
def IntTuple.maxElements (t rhs : IntTuple) : IntTuple :=
  ⟨t._q.map (fun i => match rhs.lookup i.1 with
                      | some r => (i.1, max i.2 r)
                      | none => i)⟩

/-! ## `Grid` (src/compiler/lib/Grid.hpp) -/

/-- Type tag of a dimension (`IndexType` of the expression header). -/
inductive IndexType where
  | STEP_INDEX
  | DOMAIN_INDEX
  | MISC_INDEX
deriving DecidableEq

/-- Modelled from the spec: a dimension (`IndexExpr`, pointed to by
`IndexExprPtr`), whose header is not among the sources: "has a name and a
type tag". -/
structure IndexExpr where
  _name : String
  _type : IndexType
deriving DecidableEq

/-- The halo map `_halos`: pack name, then side (`true` = left), then
step-dim offset, to the tuple of halo sizes. -/
abbrev HaloMap := StdMap String (StdMap Bool (StdMap Int IntTuple))

/-- The data members of `Grid`, with their default member initialisers (the
back-pointer `_soln` is left out). -/
structure Grid where
  _name : String
  _dims : List IndexExpr
  _isScratch : Bool := false
  _isStepAllocFixed : Bool := true
  _stepAlloc : Int := 0
  _numFoldableDims : Int := -1
  _isFoldable : Bool := false
  _minIndices : IntTuple := ⟨[]⟩
  _maxIndices : IntTuple := ⟨[]⟩
  _halos : HaloMap := ⟨[]⟩
deriving DecidableEq

/-- `Grid::getHaloSizes(packName, left)`: the max sizes of halo across all steps
for the given pack.  The two matches are the test
`_halos.count(packName) && _halos.at(packName).count(left)`. -/
def Grid.getHaloSizes (g : Grid) (packName : String) (left : Bool) : IntTuple :=
  match g._halos.find packName with
  | none => ⟨[]⟩
  | some h2 =>
    match h2.find left with
    | none => ⟨[]⟩
    | some m =>
      m.entries.foldl (fun halo i => (halo.makeUnionWith i.2).maxElements i.2) ⟨[]⟩

/-- `Grid::getHaloSize(dim, left)`: the max size in `dim` of halo across all packs
and steps. -/
def Grid.getHaloSize (g : Grid) (dim : String) (left : Bool) : Int :=
  g._halos.entries.foldl
    (fun h hi =>
      match hi.2.find left with
      | none => h
      | some m =>
        m.entries.foldl
          (fun h i =>
            match i.2.lookup dim with
            | some p => max h p
            | none => h)
          h)
    0

/-- The loop of `Grid::getStepDim()` over the dimensions that are still to be visited. -/
def Grid.getStepDimFrom : List IndexExpr → Option IndexExpr
  | [] => none
  | d :: ds => if d._type = IndexType.STEP_INDEX then some d else Grid.getStepDimFrom ds

/-- `Grid::getStepDim()`: the first dimension of type `STEP_INDEX`, or null. -/
def Grid.getStepDim (g : Grid) : Option IndexExpr :=
  Grid.getStepDimFrom g._dims

/-- `Grid::getNumFoldableDims()`; `none` is the failure of
`assert(_numFoldableDims >= 0)`. -/
def Grid.getNumFoldableDims (g : Grid) : Option Int :=
  if 0 ≤ g._numFoldableDims then some g._numFoldableDims else none

/-- `Grid::isFoldable()`; `none` is the failure of `assert(_numFoldableDims >= 0)`. -/
def Grid.isFoldable (g : Grid) : Option Bool :=
  if 0 ≤ g._numFoldableDims then some g._isFoldable else none

/-- Modelled from the spec: the constructor `Grid(name, isScratch, soln, dims)`,
whose body is not among the sources: the name, the scratch flag and the dimension
list come from the arguments; every other data member has the default member
initialiser of Grid.hpp (`_numFoldableDims = -1`: "−1 meaning not yet
computed"). The back-pointer `_soln` is not modelled. -/
def Grid.new (name : String) (isScratch : Bool) (dims : List IndexExpr) : Grid :=
  { _name := name, _dims := dims, _isScratch := isScratch }

/-- Modelled from the spec: the dimension classification `Dimensions`, only
forward-declared in Grid.hpp: "which named dimensions are the step dimension,
domain dimensions, or miscellaneous dimensions, plus the chosen vector-fold
shape (fold points) and unrolling (cluster) shape". -/
structure Dimensions where
  _stepDim : String
  _domainDims : IntTuple
  _miscDims : IntTuple
  _fold : IntTuple
  _clusterPts : IntTuple
deriving DecidableEq

/-- Modelled from the spec: the count made by `setFolding`: "a grid is foldable in
a dimension iff that dimension appears in both the grid's own dimension list and
the classification's declared fold-point shape; `numFoldableDims` counts such
dimensions". -/
def Grid.countFoldableDims (dims : Dimensions) : List IndexExpr → Int
  | [] => 0
  | d :: ds =>
    if (dims._fold.lookup d._name).isSome then Grid.countFoldableDims dims ds + 1
    else Grid.countFoldableDims dims ds

/-- Modelled from the spec: `Grid::setFolding(dims)`, declared in Grid.hpp and
defined in a file that is not among the sources: it "computes `numFoldableDims`
and `isFoldable` in one pass", and "`isFoldable` is true iff that count is
positive". -/
def Grid.setFolding (g : Grid) (dims : Dimensions) : Grid :=
  { g with
    _numFoldableDims := Grid.countFoldableDims dims g._dims
    _isFoldable := decide (0 < Grid.countFoldableDims dims g._dims) }

/-- The loop of `Grid::areDimsSame` over the dimensions of this grid that are
still to be compared, `i` being the position in `other._dims`.  `isSame` is
`IndexExpr::isSame`, defined in a file that is not among the sources.  The size
test of `areDimsSame` keeps `i` inside `other._dims`; a read past its end is not
modelled and gives `false`. -/
def Grid.areDimsSameFrom (isSame : IndexExpr → IndexExpr → Bool) (otherDims : List IndexExpr) :
    List IndexExpr → Nat → Bool
  | [], _ => true
  | dim :: ds, i =>
    match otherDims.get? i with
    | none => false
    | some d2 =>
      if !isSame dim d2 then false else Grid.areDimsSameFrom isSame otherDims ds (i + 1)

/-- `Grid::areDimsSame(other)`. -/
def Grid.areDimsSame (isSame : IndexExpr → IndexExpr → Bool) (g other : Grid) : Bool :=
  if g._dims.length ≠ other._dims.length then false
  else Grid.areDimsSameFrom isSame other._dims g._dims 0

/-! ## Halo updates (`Grid::updateHalo`, `Grid::isHaloSame`)

These member functions are declared in Grid.hpp and defined in a file that is
not among the sources. -/

/-- The statement `h[pack][left][step] = f(h[pack][left][step])` on a halo map. -/
def HaloMap.update3 (h : HaloMap) (packName : String) (left : Bool) (step : Int)
    (f : IntTuple → IntTuple) : HaloMap :=
  StdMap.update h packName ⟨[]⟩
    (fun h2 => h2.update left ⟨[]⟩ (fun m => m.update step ⟨[]⟩ f))

/-- Modelled from the spec: the tuple update of `updateHalo(packName, offsets)`:
"set, for this dimension, `max(existing, abs(o))`", the dimension being added
with the new value when the tuple does not have it yet. -/
def IntTuple.setMax (t : IntTuple) (dim : String) (val : Int) : IntTuple :=
  ⟨modifyL dim (fun o => match o with
                         | none => val
                         | some v => max v val) t._q⟩

/-- Iteration over a map of maps: every pair of an outer key and an inner key with
the value stored under them, in iteration order (`inner` lists the entries of an
outer value). -/
def flatten2 {K K2 V W : Type} (inner : V → List (K2 × W)) (l : List (K × V)) :
    List ((K × K2) × W) :=
  l.flatMap (fun e => (inner e.2).map (fun x => ((e.1, x.1), x.2)))

/-- Every `(pack, side, stepOffset)` key of a halo map with its tuple, in iteration order. -/
def HaloMap.flatten (h : HaloMap) : List ((String × Bool × Int) × IntTuple) :=
  flatten2 (fun h2 => flatten2 (fun m => m.entries) h2.entries) h.entries

/-- Modelled from the spec: `Grid::updateHalo(const Grid& other)`: "merges another
grid's entire halo map into this one by taking, for every (pack, side,
stepOffset) key present in either, the dimension-wise maximum".  A key that only
this grid has keeps its tuple. -/
def Grid.updateHaloFromGrid (g other : Grid) : Grid :=
  (HaloMap.flatten other._halos).foldl
    (fun g2 e =>
      { g2 with
        _halos := HaloMap.update3 g2._halos e.1.1 e.1.2.1 e.1.2.2
          (fun t => (t.makeUnionWith e.2).maxElements e.2) })
    g

/-- The `(pack, side)` pairs recorded in a grid's halo map. -/
def Grid.packSides (g : Grid) : List (String × Bool) :=
  g._halos.entries.flatMap (fun hi => hi.2.entries.map (fun i0 => (hi.1, i0.1)))

/-- Modelled from the spec: when two reduced halo tuples "match": they have the
same dimensions with the same values. -/
def IntTuple.sameSizes (t u : IntTuple) : Bool :=
  t.getDimNames.all (fun d => t.lookup d = u.lookup d) &&
    u.getDimNames.all (fun d => t.lookup d = u.lookup d)

/-- Modelled from the spec: `Grid::isHaloSame(other)`: "true iff the fully-reduced
halo sizes (via `getHaloSizes`) match for every pack/side pairing recorded in
either grid". -/
def Grid.isHaloSame (g other : Grid) : Bool :=
  (g.packSides ++ other.packSides).all
    (fun ps => (g.getHaloSizes ps.1 ps.2).sameSizes (other.getHaloSizes ps.1 ps.2))

/-! ## Observed constant indices (`Grid::updateConstIndices`)

Declared in Grid.hpp and defined in a file that is not among the sources. -/

/-- Modelled from the spec: the tuple update that widens a lower bound: the
dimension gets the smaller of its value and `val`, and is added with `val` when
the tuple does not have it yet ("new dims added, existing bounds only widen"). -/
def IntTuple.setMin (t : IntTuple) (dim : String) (val : Int) : IntTuple :=
  ⟨modifyL dim (fun o => match o with
                         | none => val
                         | some v => min v val) t._q⟩

/-- Modelled from the spec: what `updateConstIndices` does for one dimension `dim`
with constant offset `o`: "it widens `minIndices`/`maxIndices` for that dimension
if the new offset exceeds the previously recorded bound". -/
def Grid.updateConstIndex (g : Grid) (dim : String) (o : Int) : Grid :=
  { g with
    _minIndices := g._minIndices.setMin dim o
    _maxIndices := g._maxIndices.setMax dim o }

/-- Modelled from the spec: `Grid::updateConstIndices(indices)`: "the underlying
primitive that widens `minIndices`/`maxIndices`", for every dimension of
`indices`. -/
def Grid.updateConstIndices (g : Grid) (indices : IntTuple) : Grid :=
  indices._q.foldl (fun g2 i => g2.updateConstIndex i.1 i.2) g

/-- The accesses of a sequence passed to `updateConstIndices` one after the other. -/
def Grid.updateConstIndicesAll (g : Grid) (accesses : List IntTuple) : Grid :=
  accesses.foldl (fun g2 a => g2.updateConstIndices a) g

/-- Smaller of two optional values, an absent one giving way to the other. -/
def optMin : Option Int → Option Int → Option Int
  | none, b => b
  | some a, none => some a
  | some a, some b => some (min a b)

/-! ## Vocabulary of the halo properties -/

/-- The tuple stored under `(packName, left, step)`, if any. -/
def HaloMap.find3 (h : HaloMap) (packName : String) (left : Bool) (step : Int) :
    Option IntTuple :=
  ((StdMap.find h packName).bind (fun h2 => h2.find left)).bind (fun m => m.find step)

/-- The halo size stored under `(packName, left, step)` for dimension `dim`, if any. -/
def Grid.haloAt (g : Grid) (packName : String) (left : Bool) (step : Int) (dim : String) :
    Option Int :=
  (HaloMap.find3 g._halos packName left step).bind (fun t => t.lookup dim)

/-- `o` is the largest of the values `f k`, over all step offsets `k` that have one
(`none` when no step offset has a value). -/
def IsSupOf (f : Int → Option Int) (o : Option Int) : Prop :=
  (∀ (k : Int) (w : Int), f k = some w → ∃ v : Int, o = some v ∧ w ≤ v) ∧
    (∀ v : Int, o = some v → ∃ k : Int, f k = some v)

/-- Representation invariant of the halo map: no key occurs twice in the map of
packs, in any map of sides, or in any map of step offsets. -/
def HaloMap.wellFormed (h : HaloMap) : Prop :=
  StdMap.uniqueKeys h ∧
    ∀ hi ∈ h.entries, hi.2.uniqueKeys ∧ ∀ i0 ∈ hi.2.entries, i0.2.uniqueKeys

instance (h : HaloMap) : Decidable (HaloMap.wellFormed h) := by
  unfold HaloMap.wellFormed
  infer_instance


/-- The step-offset entries recorded under `(packName, left)`; none when the pack
or the side has no entry. -/
def Grid.stepEntries (g : Grid) (packName : String) (left : Bool) : List (Int × IntTuple) :=
  match g._halos.find packName with
  | none => []
  | some h2 =>
    match h2.find left with
    | none => []
    | some m => m.entries

/-- Larger of two optional values, an absent one giving way to the other. -/
def optMax : Option Int → Option Int → Option Int
  | none, b => b
  | some a, none => some a
  | some a, some b => some (max a b)

/-- The value of `dim` in the reduced halo of a pack, a missing dimension counting as 0. -/
def Grid.packHalo (g : Grid) (dim : String) (left : Bool) (packName : String) : Int :=
  ((g.getHaloSizes packName left).lookup dim).getD 0

/-! ## `Indices` and `ScanIndices` (src/kernel/lib/yask.hpp)

The capacity `max_idxs` is the macro `MAX_DIMS`, set by a header that is not among
the sources; it is a parameter here. -/

/-- `Indices`: the array `idx_t _idxs[max_idxs]`. -/
structure Indices (max_idxs : Nat) where
  _idxs : Fin max_idxs → Int

/-- The assignment `_idxs[i] = v`. -/
def Indices.set {max_idxs : Nat} (a : Indices max_idxs) (i : Fin max_idxs) (v : Int) :
    Indices max_idxs :=
  ⟨Function.update a._idxs i v⟩

/-- `Indices()`: `_idxs[max_idxs] = {0}`. -/
def Indices.zero {max_idxs : Nat} : Indices max_idxs := ⟨fun _ => 0⟩

/-- `Indices::setFromConst(val)`. -/
def Indices.setFromConst {max_idxs : Nat} (a : Indices max_idxs) (val : Int) :
    Indices max_idxs :=
  (List.finRange max_idxs).foldl (fun acc i => acc.set i val) a

/-- `Indices(idx_t val)`, also the implicit conversion in `begin = 0`. -/
def Indices.ofConst {max_idxs : Nat} (val : Int) : Indices max_idxs :=
  Indices.zero.setFromConst val

/-- `Indices::setFromVec(src)` on a `GridIndices` (vector of `idx_t`); `none` is the
failure of `assert(src.size() < max_idxs)`. -/
def Indices.setFromVec {max_idxs : Nat} (a : Indices max_idxs) (src : List Int) :
    Option (Indices max_idxs) :=
  if src.length < max_idxs then
    some ((List.finRange max_idxs).foldl
      (fun acc i => acc.set i (if i.val < src.length then src.getD i.val 0 else 0)) a)
  else none

/-- The loop `for (auto idx : src) _idxs[i++] = idx` of `Indices::setFromInitList`,
from position `i`.  The assertion of `setFromInitList` keeps `i` below
`max_idxs`; a write past the array is not modelled and ends the loop. -/
def Indices.setFromInitListFrom {max_idxs : Nat} (a : Indices max_idxs) :
    List Int → Nat → Indices max_idxs
  | [], _ => a
  | idx :: rest, i =>
    if h : i < max_idxs then Indices.setFromInitListFrom (a.set ⟨i, h⟩ idx) rest (i + 1)
    else a

/-- `Indices::setFromInitList(src)`; `none` is the failure of
`assert(src.size() < max_idxs)`. -/
def Indices.setFromInitList {max_idxs : Nat} (a : Indices max_idxs) (src : List Int) :
    Option (Indices max_idxs) :=
  if src.length < max_idxs then some (Indices.setFromInitListFrom a src 0) else none

/-- `Indices::setFromArray(nelems, src)`, the array `src[]` being the function from a
position to the element stored there; `none` is the failure of
`assert(nelems < max_idxs)`. -/
def Indices.setFromArray {max_idxs : Nat} (a : Indices max_idxs) (nelems : Int)
    (src : Nat → Int) : Option (Indices max_idxs) :=
  if nelems < (max_idxs : Int) then
    some ((List.finRange max_idxs).foldl
      (fun acc i => acc.set i (if (i.val : Int) < nelems then src i.val else 0)) a)
  else none

/-- `Indices(const GridIndices& src)`. -/
def Indices.ofVec {max_idxs : Nat} (src : List Int) : Option (Indices max_idxs) :=
  Indices.zero.setFromVec src

/-- `Indices(const std::initializer_list<idx_t>& src)`. -/
def Indices.ofInitList {max_idxs : Nat} (src : List Int) : Option (Indices max_idxs) :=
  Indices.zero.setFromInitList src

/-- `Indices(int nelems, const idx_t src[])`. -/
def Indices.ofArray {max_idxs : Nat} (nelems : Int) (src : Nat → Int) :
    Option (Indices max_idxs) :=
  Indices.zero.setFromArray nelems src

/-! ### The setters in either build

yask.hpp (lines 38-42) defines `NDEBUG` unless `DEBUG` is defined, before
`<assert.h>` is included: `assert` is checked in a DEBUG build only and is
removed in the default build.  The definitions above are the setters of a DEBUG
build; the ones below take the build as an argument. -/

/-- `Indices::minElements(other)`. -/
def Indices.minElements {max_idxs : Nat} (a other : Indices max_idxs) : Indices max_idxs :=
  (List.finRange max_idxs).foldl
    (fun res i => res.set i (min (a._idxs i) (other._idxs i))) Indices.zero

/-- `Indices::maxElements(other)`. -/
def Indices.maxElements {max_idxs : Nat} (a other : Indices max_idxs) : Indices max_idxs :=
  (List.finRange max_idxs).foldl
    (fun res i => res.set i (max (a._idxs i) (other._idxs i))) Indices.zero

/-- The value of the integer `x` in a two's-complement signed type of `bits` bits. -/
def wrapSigned (bits : Nat) (x : Int) : Int :=
  (x + 2 ^ (bits - 1)) % 2 ^ bits - 2 ^ (bits - 1)

/-- The integer `x` is a value of the signed type of `bits` bits. -/
def fitsSigned (bits : Nat) (x : Int) : Prop :=
  -(2 ^ (bits - 1)) ≤ x ∧ x < 2 ^ (bits - 1)

instance (bits : Nat) (x : Int) : Decidable (fitsSigned bits x) := by
  unfold fitsSigned
  infer_instance

/-- `Indices::addElements(n)`.  The sum `_idxs[i] + n` is an `idx_t`, a signed type
declared in a header that is not among the sources; its width `idx_bits` is a
parameter, and a sum outside the type wraps around. -/
def Indices.addElements {max_idxs : Nat} (idx_bits : Nat) (a : Indices max_idxs) (n : Int) :
    Indices max_idxs :=
  (List.finRange max_idxs).foldl
    (fun res i => res.set i (wrapSigned idx_bits (a._idxs i + n))) Indices.zero

/-- The loop of `Indices::operator==` over the slots that are still to be compared. -/
def Indices.operator_eq_from {max_idxs : Nat} (a rhs : Indices max_idxs) :
    List (Fin max_idxs) → Bool
  | [] => true
  | i :: is => if a._idxs i ≠ rhs._idxs i then false else Indices.operator_eq_from a rhs is

/-- `Indices::operator==`. -/
def Indices.operator_eq {max_idxs : Nat} (a rhs : Indices max_idxs) : Bool :=
  Indices.operator_eq_from a rhs (List.finRange max_idxs)

/-- `Indices::operator!=`. -/
def Indices.operator_ne {max_idxs : Nat} (a rhs : Indices max_idxs) : Bool :=
  !a.operator_eq rhs

/-- The loop of `Indices::operator<` over the slots that are still to be compared. -/
def Indices.operator_lt_from {max_idxs : Nat} (a rhs : Indices max_idxs) :
    List (Fin max_idxs) → Bool
  | [] => false
  | i :: is =>
    if a._idxs i < rhs._idxs i then true
    else if a._idxs i > rhs._idxs i then false
    else Indices.operator_lt_from a rhs is

/-- `Indices::operator<`. -/
def Indices.operator_lt {max_idxs : Nat} (a rhs : Indices max_idxs) : Bool :=
  Indices.operator_lt_from a rhs (List.finRange max_idxs)

/-- The loop of `Indices::operator>` over the slots that are still to be compared. -/
def Indices.operator_gt_from {max_idxs : Nat} (a rhs : Indices max_idxs) :
    List (Fin max_idxs) → Bool
  | [] => false
  | i :: is =>
    if a._idxs i > rhs._idxs i then true
    else if a._idxs i < rhs._idxs i then false
    else Indices.operator_gt_from a rhs is

/-- `Indices::operator>`. -/
def Indices.operator_gt {max_idxs : Nat} (a rhs : Indices max_idxs) : Bool :=
  Indices.operator_gt_from a rhs (List.finRange max_idxs)

/-- The vector written `[v0, v1, ...]` in the specification: the listed values in
the leading slots and 0 in every other slot. -/
def Indices.ofList {max_idxs : Nat} (l : List Int) : Indices max_idxs :=
  ⟨fun i => l.getD i.val 0⟩

/-- `ScanIndices`; the member `end` is written `end_`. -/
structure ScanIndices (max_idxs : Nat) where
  begin : Indices max_idxs
  end_ : Indices max_idxs
  step : Indices max_idxs
  group_size : Indices max_idxs
  start : Indices max_idxs
  stop : Indices max_idxs
  index : Indices max_idxs

/-- `ScanIndices()`: the default initialisation. -/
def ScanIndices.new {max_idxs : Nat} : ScanIndices max_idxs :=
  { begin := Indices.ofConst 0
    end_ := Indices.ofConst 0
    step := Indices.ofConst 1
    group_size := Indices.ofConst 1
    start := Indices.ofConst 0
    stop := Indices.ofConst 0
    index := Indices.ofConst 0 }

/-- `ScanIndices::initFromOuter(outer)`. -/
def ScanIndices.initFromOuter {max_idxs : Nat} (child outer : ScanIndices max_idxs) :
    ScanIndices max_idxs :=
  { child with
    begin := outer.start
    end_ := outer.stop
    start := outer.start
    stop := outer.stop
    index := outer.index }

/-- `ScanIndices::initFromOuter(outer)` as the member function it is, on a memory
`mem` of `ScanIndices` objects: `child` is the address of the object the
function is called on and `outer` the address the reference is bound to (the
two may be the same address).  The five assignments run in the order of the
source, each reading `outer` from the memory as it is at that point. -/
def ScanIndices.initFromOuterAt {max_idxs : Nat} (mem : Nat → ScanIndices max_idxs)
    (child outer : Nat) : Nat → ScanIndices max_idxs :=
  let m1 := Function.update mem child { mem child with begin := (mem outer).start }
  let m2 := Function.update m1 child { m1 child with end_ := (m1 outer).stop }
  let m3 := Function.update m2 child { m2 child with start := (m2 outer).start }
  let m4 := Function.update m3 child { m3 child with stop := (m3 outer).stop }
  Function.update m4 child { m4 child with index := (m4 outer).index }

/-! ## Sample inputs -/

/-- An outer scan level whose active sub-range `[0, 10)` is not inside its total
range `[5, 6)`. -/
def strayOuter (max_idxs : Nat) : ScanIndices max_idxs :=
  { begin := Indices.ofConst 5
    end_ := Indices.ofConst 6
    step := Indices.ofConst 1
    group_size := Indices.ofConst 1
    start := Indices.ofConst 0
    stop := Indices.ofConst 10
    index := Indices.ofConst 0 }

/-- An outer scan level with total range `[0, 16)` and active sub-range `[4, 10)`. -/
def nestedOuter (max_idxs : Nat) : ScanIndices max_idxs :=
  { begin := Indices.ofConst 0
    end_ := Indices.ofConst 16
    step := Indices.ofConst 1
    group_size := Indices.ofConst 1
    start := Indices.ofConst 4
    stop := Indices.ofConst 10
    index := Indices.ofConst 4 }

/-- A memory with a default-constructed `ScanIndices` at address 0 and
`nestedOuter` (total range `[0, 16)`, active sub-range `[4, 10)`) at every other
address. -/
def sampleMem (max_idxs : Nat) : Nat → ScanIndices max_idxs :=
  fun a => if a = 0 then ScanIndices.new else nestedOuter max_idxs

/-- A grid whose only halo is 5 to the right in `x`, for pack `p` at step offset 0. -/
def wideGrid : Grid :=
  { _name := "a"
    _dims := [⟨"x", .DOMAIN_INDEX⟩]
    _halos := ⟨[("p", ⟨[(false, ⟨[(0, ⟨[("x", 5)]⟩)]⟩)]⟩)]⟩ }

/-- A grid whose only halo is 1 to the right in `x`, for pack `p` at step offset 0. -/
def narrowGrid : Grid :=
  { _name := "b"
    _dims := [⟨"x", .DOMAIN_INDEX⟩]
    _halos := ⟨[("p", ⟨[(false, ⟨[(0, ⟨[("x", 1)]⟩)]⟩)]⟩)]⟩ }


/-- A grid over `t` (step), `x`, `y` whose pack `p` records right halos at the step
offsets 0 and 1 and a left halo at step offset 0, and whose pack `q` records a
right halo at step offset 0. -/
def sampleGrid : Grid :=
  { _name := "u"
    _dims := [⟨"t", .STEP_INDEX⟩, ⟨"x", .DOMAIN_INDEX⟩, ⟨"y", .DOMAIN_INDEX⟩]
    _halos := ⟨[("p", ⟨[(false, ⟨[(0, ⟨[("x", 1)]⟩), (1, ⟨[("x", 3), ("y", 2)]⟩)]⟩),
                        (true, ⟨[(0, ⟨[("x", 2)]⟩)]⟩)]⟩),
                ("q", ⟨[(false, ⟨[(0, ⟨[("x", 5)]⟩)]⟩)]⟩)]⟩ }

/-! ## Theorems: containers -/

theorem lookupL_append {K V : Type} [DecidableEq K] (k : K) (l r : List (K × V)) :
    lookupL k (l ++ r) = (lookupL k l).orElse (fun _ => lookupL k r) := by
  induction l with
  | nil => simp [lookupL]
  | cons e l ih =>
    by_cases h : e.1 = k
    · simp [lookupL, h]
    · simp [lookupL, h, ih]

theorem lookupL_isSome_iff {K V : Type} [DecidableEq K] (k : K) (l : List (K × V)) :
    (lookupL k l).isSome = true ↔ k ∈ l.map Prod.fst := by
  induction l with
  | nil => simp [lookupL]
  | cons e l ih =>
    by_cases h : e.1 = k
    · simp [lookupL, h]
    · have h2 : ¬ k = e.1 := fun hh => h hh.symm
      simp [lookupL, h, h2, ih]

theorem lookupL_eq_none_iff {K V : Type} [DecidableEq K] (k : K) (l : List (K × V)) :
    lookupL k l = none ↔ k ∉ l.map Prod.fst := by
  rw [← lookupL_isSome_iff]
  cases lookupL k l <;> simp

theorem lookupL_mem {K V : Type} [DecidableEq K] (k : K) (v : V) (l : List (K × V))
    (h : lookupL k l = some v) : (k, v) ∈ l := by
  induction l with
  | nil => simp [lookupL] at h
  | cons e l ih =>
    by_cases hk : e.1 = k
    · simp [lookupL, hk] at h
      subst hk; subst h
      simp
    · simp [lookupL, hk] at h
      exact List.mem_cons_of_mem _ (ih h)

theorem lookupL_of_mem_nodup {K V : Type} [DecidableEq K] (k : K) (v : V) (l : List (K × V))
    (hn : (l.map Prod.fst).Nodup) (h : (k, v) ∈ l) : lookupL k l = some v := by
  induction l with
  | nil => simp at h
  | cons e l ih =>
    simp only [List.map_cons, List.nodup_cons] at hn
    rcases List.mem_cons.1 h with h1 | h1
    · subst h1
      simp [lookupL]
    · have hne : ¬ e.1 = k := by
        intro hh
        apply hn.1
        rw [hh]
        exact List.mem_map.2 ⟨(k, v), h1, rfl⟩
      simp [lookupL, hne, ih hn.2 h1]

/-! ## Theorems: tuples -/


theorem IntTuple.lookup_makeUnionWith (t rhs : IntTuple) (d : String) :
    (t.makeUnionWith rhs).lookup d = (t.lookup d).orElse (fun _ => rhs.lookup d) := by
  obtain ⟨r⟩ := rhs
  simp only [IntTuple.makeUnionWith]
  induction r generalizing t with
  | nil => cases h : lookupL d t._q <;> simp [IntTuple.lookup, lookupL, h]
  | cons e r ih =>
    simp only [List.foldl_cons]
    rw [ih]
    by_cases he : (t.lookup e.1).isSome = true
    · rw [if_pos he]
      by_cases hd : e.1 = d
      · subst hd
        cases h : t.lookup e.1 with
        | none => simp [h] at he
        | some x => simp
      · cases h : t.lookup d <;> simp [IntTuple.lookup, lookupL, hd]
    · rw [if_neg he]
      simp only [IntTuple.lookup, IntTuple.addDimBack, lookupL_append]
      by_cases hd : e.1 = d
      · subst hd
        have : lookupL e.1 t._q = none := by
          simpa [IntTuple.lookup] using he
        simp [this, lookupL]
      · cases h : lookupL d t._q <;> simp [lookupL, hd]

theorem IntTuple.lookup_maxElements (t rhs : IntTuple) (d : String) :
    (t.maxElements rhs).lookup d =
      match t.lookup d with
      | none => none
      | some a => match rhs.lookup d with
                  | some r => some (max a r)
                  | none => some a := by
  obtain ⟨q⟩ := t
  simp only [IntTuple.maxElements, IntTuple.lookup]
  induction q with
  | nil => simp [lookupL]
  | cons e q ih =>
    by_cases hd : e.1 = d
    · subst hd
      cases h : lookupL e.1 rhs._q <;> simp [lookupL, h, IntTuple.lookup]
    · cases h : lookupL e.1 rhs._q <;> simp [lookupL, h, IntTuple.lookup, hd, ih]

/-- One round of the loop of `getHaloSizes` is a per-dimension optional maximum. -/
theorem IntTuple.lookup_union_max (halo hs : IntTuple) (d : String) :
    ((halo.makeUnionWith hs).maxElements hs).lookup d = optMax (halo.lookup d) (hs.lookup d) := by
  rw [IntTuple.lookup_maxElements, IntTuple.lookup_makeUnionWith]
  cases h1 : halo.lookup d <;> cases h2 : hs.lookup d <;> simp [optMax]


/-! ## Theorems: reducing optional values by maximum -/

theorem optMax_foldl_eq_some (xs : List (Option Int)) (acc : Option Int) (v : Int) :
    xs.foldl optMax acc = some v ↔
      (acc = some v ∨ some v ∈ xs) ∧ (∀ w, acc = some w → w ≤ v) ∧ ∀ w, some w ∈ xs → w ≤ v := by
  induction xs generalizing acc with
  | nil => 
    constructor
    · intro h
      simp only [List.foldl_nil] at h
      subst h
      simp
    · rintro ⟨h | h, _, _⟩
      · simpa using h
      · simp at h
  | cons x xs ih =>
    simp only [List.foldl_cons, ih, List.mem_cons]
    cases acc with
    | none =>
      cases x with
      | none => simp [optMax]
      | some b =>
        simp only [optMax]
        constructor
        · rintro ⟨h, h1, h2⟩
          refine ⟨?_, by simp, ?_⟩
          · rcases h with h | h
            · exact Or.inr (Or.inl h.symm)
            · exact Or.inr (Or.inr h)
          · intro w hw
            rcases hw with hw | hw
            · exact h1 w hw.symm
            · exact h2 w hw
        · rintro ⟨h, -, h2⟩
          refine ⟨?_, ?_, ?_⟩
          · rcases h with h | h | h
            · simp at h
            · exact Or.inl h.symm
            · exact Or.inr h
          · intro w hw
            exact h2 w (Or.inl hw.symm)
          · intro w hw
            exact h2 w (Or.inr hw)
    | some a =>
      cases x with
      | none => simp [optMax]
      | some b =>
        simp only [optMax, Option.some.injEq]
        constructor
        · rintro ⟨h, h1, h2⟩
          have hm := h1 _ rfl
          have ha : a ≤ v := le_trans (le_max_left a b) hm
          have hb : b ≤ v := le_trans (le_max_right a b) hm
          refine ⟨?_, ?_, ?_⟩
          · rcases h with h | h
            · rcases le_total a b with hab | hab
              · rw [max_eq_right hab] at h
                exact Or.inr (Or.inl (by rw [h]))
              · rw [max_eq_left hab] at h
                exact Or.inl h
            · exact Or.inr (Or.inr h)
          · intro w hw
            rw [← hw]; exact ha
          · intro w hw
            rcases hw with hw | hw
            · rw [hw]; exact hb
            · exact h2 w hw
        · rintro ⟨h, h1, h2⟩
          have ha : a ≤ v := h1 a rfl
          have hb : b ≤ v := h2 b (Or.inl rfl)
          refine ⟨?_, ?_, ?_⟩
          · rcases h with h | h | h
            · left
              rw [← h] at hb ⊢
              exact max_eq_left hb
            · left
              have hvb : v = b := h
              rw [hvb] at ha ⊢
              exact max_eq_right ha
            · exact Or.inr h
          · intro w hw
            rw [← hw]
            exact max_le ha hb
          · intro w hw
            exact h2 w (Or.inr hw)

theorem optMax_foldl_isSome (xs : List (Option Int)) (acc : Option Int) :
    (xs.foldl optMax acc).isSome = true ↔ acc.isSome = true ∨ ∃ x ∈ xs, x.isSome = true := by
  induction xs generalizing acc with
  | nil => simp
  | cons x xs ih =>
    simp only [List.foldl_cons, ih, List.mem_cons]
    cases acc <;> cases x <;> simp [optMax]

/-! ## Theorems: `getHaloSizes` -/

/-- The loop of `getHaloSizes`, seen at one dimension, folds the optional maximum. -/
theorem lookup_foldl_union_max (es : List (Int × IntTuple)) (acc : IntTuple) (d : String) :
    (es.foldl (fun halo i => (halo.makeUnionWith i.2).maxElements i.2) acc).lookup d =
      (es.map (fun i => i.2.lookup d)).foldl optMax (acc.lookup d) := by
  induction es generalizing acc with
  | nil => simp
  | cons e es ih =>
    simp only [List.foldl_cons, List.map_cons]
    rw [ih, IntTuple.lookup_union_max]

theorem Grid.lookup_getHaloSizes (g : Grid) (packName : String) (left : Bool) (d : String) :
    (g.getHaloSizes packName left).lookup d =
      ((g.stepEntries packName left).map (fun i => i.2.lookup d)).foldl optMax none := by
  unfold Grid.getHaloSizes Grid.stepEntries
  cases h1 : g._halos.find packName with
  | none => simp [IntTuple.lookup, lookupL]
  | some h2 =>
    cases h3 : h2.find left with
    | none => simp [h3, IntTuple.lookup, lookupL]
    | some m =>
      simp only [h3]
      rw [lookup_foldl_union_max]
      simp [IntTuple.lookup, lookupL]

/-- The tuple returned by `getHaloSizes` has a dimension iff a step-offset entry of
the (pack, side) pair has it. -/
theorem Grid.getHaloSizes_lookup_isSome (g : Grid) (packName : String) (left : Bool)
    (d : String) :
    ((g.getHaloSizes packName left).lookup d).isSome = true ↔
      ∃ e ∈ g.stepEntries packName left, (e.2.lookup d).isSome = true := by
  rw [Grid.lookup_getHaloSizes, optMax_foldl_isSome]
  constructor
  · rintro (h | ⟨x, hx, hs⟩)
    · simp at h
    · obtain ⟨e, he, rfl⟩ := List.mem_map.1 hx
      exact ⟨e, he, hs⟩
  · rintro ⟨e, he, hs⟩
    exact Or.inr ⟨_, List.mem_map.2 ⟨e, he, rfl⟩, hs⟩

/-- The value of a dimension in the tuple returned by `getHaloSizes` is the largest
of the values that the step-offset entries of the (pack, side) pair have for it. -/
theorem Grid.getHaloSizes_lookup_eq_some (g : Grid) (packName : String) (left : Bool)
    (d : String) (v : Int) :
    (g.getHaloSizes packName left).lookup d = some v ↔
      (∃ e ∈ g.stepEntries packName left, e.2.lookup d = some v) ∧
        ∀ e ∈ g.stepEntries packName left, ∀ w : Int, e.2.lookup d = some w → w ≤ v := by
  rw [Grid.lookup_getHaloSizes, optMax_foldl_eq_some]
  simp only [List.mem_map, false_or, reduceCtorEq, false_implies, implies_true, true_and]
  constructor
  · rintro ⟨⟨e, he, hv⟩, hub⟩
    exact ⟨⟨e, he, hv⟩, fun e2 he2 w hw => hub w ⟨e2, he2, hw⟩⟩
  · rintro ⟨⟨e, he, hv⟩, hub⟩
    exact ⟨⟨e, he, hv⟩, fun w ⟨e2, he2, hw⟩ => hub e2 he2 w hw⟩

/-- C1: for every halo map, pack and side, the tuple returned by `getHaloSizes`
has a dimension `d` exactly when some step-offset entry recorded under
(pack, side) has it, and its value for `d` is the maximum of the recorded
values (it is one of them and it is at least every one of them); when the pack
or the side has no entry the result is the empty tuple. -/
theorem Grid.getHaloSizes_max_over_steps (g : Grid) (packName : String) (left : Bool) :
    (∀ d : String, ((g.getHaloSizes packName left).lookup d).isSome = true ↔
        ∃ e ∈ g.stepEntries packName left, (e.2.lookup d).isSome = true) ∧
    (∀ (d : String) (v : Int), (g.getHaloSizes packName left).lookup d = some v ↔
        (∃ e ∈ g.stepEntries packName left, e.2.lookup d = some v) ∧
          ∀ e ∈ g.stepEntries packName left, ∀ w : Int, e.2.lookup d = some w → w ≤ v) ∧
    ((g._halos.find packName).bind (fun h2 => h2.find left) = none →
        g.getHaloSizes packName left = ⟨[]⟩) := by
  refine ⟨Grid.getHaloSizes_lookup_isSome g packName left,
    Grid.getHaloSizes_lookup_eq_some g packName left, ?_⟩
  intro h
  unfold Grid.getHaloSizes
  cases h1 : g._halos.find packName with
  | none => rfl
  | some h2 =>
    rw [h1] at h
    have h3 : h2.find left = none := h
    simp only [h3]

theorem Grid.getHaloSizes_max_over_steps_witness :
    ((sampleGrid._halos.find "q").bind (fun h2 => h2.find true) = none) ∧
      sampleGrid.getHaloSizes "q" true = ⟨[]⟩ :=
  ⟨by decide, (Grid.getHaloSizes_max_over_steps sampleGrid "q" true).2.2 (by decide)⟩

example : sampleGrid.getHaloSize "x" false = 5 := by decide

/-! ## Theorems: `getHaloSize` -/

theorem foldl_max_ge_init (l : List Int) (a : Int) : a ≤ l.foldl max a := by
  induction l generalizing a with
  | nil => simp
  | cons x l ih =>
    simp only [List.foldl_cons]
    exact le_trans (le_max_left a x) (ih _)

theorem foldl_max_ge_mem (l : List Int) (a x : Int) (hx : x ∈ l) : x ≤ l.foldl max a := by
  induction l generalizing a with
  | nil => simp at hx
  | cons y l ih =>
    simp only [List.foldl_cons]
    rcases List.mem_cons.1 hx with h | h
    · subst h
      exact le_trans (le_max_right a x) (foldl_max_ge_init _ _)
    · exact ih _ h

theorem foldl_max_eq_init (l : List Int) (a : Int) (h : ∀ x ∈ l, x ≤ a) : l.foldl max a = a := by
  induction l with
  | nil => simp
  | cons y l ih =>
    simp only [List.foldl_cons]
    rw [max_eq_left (h y (List.mem_cons_self _ _))]
    exact ih (fun x hx => h x (List.mem_cons_of_mem _ hx))

/-- The inner loop of `getHaloSize` against the optional maximum of the entries. -/
theorem getHaloSize_inner (es : List (Int × IntTuple)) (dim : String) (h0 : Int)
    (acc : Option Int) :
    es.foldl (fun h i => match i.2.lookup dim with
                         | some p => max h p
                         | none => h)
        (match acc with
         | none => h0
         | some a => max h0 a) =
      match (es.map (fun i => i.2.lookup dim)).foldl optMax acc with
      | none => h0
      | some v => max h0 v := by
  induction es generalizing acc with
  | nil => simp
  | cons e es ih =>
    simp only [List.foldl_cons, List.map_cons]
    rw [← ih]
    congr 1
    cases acc <;> cases h : e.2.lookup dim <;> simp [optMax, max_assoc]

/-- One round of the outer loop of `getHaloSize`, for a pack stored in the map. -/
theorem Grid.getHaloSize_round (g : Grid) (dim : String) (left : Bool)
    (hi : String × StdMap Bool (StdMap Int IntTuple))
    (hf : g._halos.find hi.1 = some hi.2) (h : Int) (hh : 0 ≤ h) :
    (match hi.2.find left with
      | none => h
      | some m =>
        m.entries.foldl
          (fun h i =>
            match i.2.lookup dim with
            | some p => max h p
            | none => h)
          h) = max h (g.packHalo dim left hi.1) := by
  unfold Grid.packHalo
  rw [Grid.lookup_getHaloSizes]
  unfold Grid.stepEntries
  rw [hf]
  cases h3 : hi.2.find left with
  | none => simp [h3, hh]
  | some m =>
    simp only [h3]
    have := getHaloSize_inner m.entries dim h none
    simp only at this
    rw [this]
    cases h4 : (m.entries.map (fun i => i.2.lookup dim)).foldl optMax none with
    | none => simp [hh]
    | some v => simp

theorem Grid.getHaloSize_outer (g : Grid) (dim : String) (left : Bool)
    (es : List (String × StdMap Bool (StdMap Int IntTuple)))
    (hes : ∀ hi ∈ es, g._halos.find hi.1 = some hi.2) (h : Int) (hh : 0 ≤ h) :
    es.foldl
      (fun h hi =>
        match hi.2.find left with
        | none => h
        | some m =>
          m.entries.foldl
            (fun h i =>
              match i.2.lookup dim with
              | some p => max h p
              | none => h)
            h)
      h = ((es.map Prod.fst).map (g.packHalo dim left)).foldl max h := by
  induction es generalizing h with
  | nil => simp
  | cons e es ih =>
    simp only [List.foldl_cons, List.map_cons]
    rw [Grid.getHaloSize_round g dim left e (hes e (List.mem_cons_self _ _)) h hh]
    exact ih (fun hi hm => hes hi (List.mem_cons_of_mem _ hm)) _ (le_trans hh (le_max_left _ _))

/-- C2: for every halo map (keys unique, as in any `std::map`), dimension and
side, `getHaloSize(dim, side)` is the maximum over the packs of the value of
`dim` in `getHaloSizes(pack, side)`, a pack whose reduced tuple lacks `dim`
counting as 0: it is the running maximum, from 0, over the packs of the map, it
bounds the value of every pack name, and it is 0 when no pack records `dim` on
that side.  Non-negativity of the stored values is not needed. -/
theorem Grid.getHaloSize_max_over_packs (g : Grid) (hu : g._halos.uniqueKeys)
    (dim : String) (left : Bool) :
    g.getHaloSize dim left = (g._halos.keys.map (g.packHalo dim left)).foldl max 0 ∧
    (∀ p : String, g.packHalo dim left p ≤ g.getHaloSize dim left) ∧
    ((∀ p : String, (g.getHaloSizes p left).lookup dim = none) → g.getHaloSize dim left = 0) := by
  have hmain : g.getHaloSize dim left = (g._halos.keys.map (g.packHalo dim left)).foldl max 0 := by
    unfold Grid.getHaloSize StdMap.keys
    apply Grid.getHaloSize_outer g dim left g._halos.entries _ 0 (le_refl 0)
    intro hi hm
    exact lookupL_of_mem_nodup hi.1 hi.2 g._halos.entries hu hm
  refine ⟨hmain, ?_, ?_⟩
  · intro p
    rw [hmain]
    by_cases hp : p ∈ g._halos.keys
    · exact foldl_max_ge_mem _ _ _ (List.mem_map.2 ⟨p, hp, rfl⟩)
    · have hnone : g._halos.find p = none := (lookupL_eq_none_iff p g._halos.entries).2 hp
      have h0 : g.packHalo dim left p = 0 := by
        simp [Grid.packHalo, Grid.getHaloSizes, hnone, IntTuple.lookup, lookupL]
      rw [h0]
      exact foldl_max_ge_init _ _
  · intro hnone
    rw [hmain]
    apply foldl_max_eq_init
    intro x hx
    obtain ⟨p, -, rfl⟩ := List.mem_map.1 hx
    simp [Grid.packHalo, hnone p]

theorem Grid.getHaloSize_max_over_packs_witness :
    sampleGrid._halos.uniqueKeys ∧
      sampleGrid.getHaloSize "x" false =
        (sampleGrid._halos.keys.map (sampleGrid.packHalo "x" false)).foldl max 0 ∧
      sampleGrid.getHaloSize "x" false = 5 :=
  ⟨by decide, (Grid.getHaloSize_max_over_packs sampleGrid (by decide) "x" false).1, by decide⟩

/-! ## Theorems: map updates -/

theorem lookupL_modifyL {K V : Type} [DecidableEq K] (k k2 : K) (f : Option V → V)
    (l : List (K × V)) :
    lookupL k2 (modifyL k f l) = if k2 = k then some (f (lookupL k l)) else lookupL k2 l := by
  induction l with
  | nil =>
    by_cases h : k2 = k
    · simp [modifyL, lookupL, h]
    · have h2 : ¬ k = k2 := fun hh => h hh.symm
      simp [modifyL, lookupL, h, h2]
  | cons e l ih =>
    by_cases he : e.1 = k
    · by_cases h : k2 = k
      · simp [modifyL, lookupL, he, h]
      · have h2 : ¬ k = k2 := fun hh => h hh.symm
        simp [modifyL, lookupL, he, h, h2]
    · by_cases h : k2 = k
      · subst h
        simp [modifyL, lookupL, he, ih]
      · by_cases h3 : e.1 = k2
        · simp [modifyL, lookupL, he, h, h3]
        · simp [modifyL, lookupL, he, h, h3, ih]

theorem keys_modifyL {K V : Type} [DecidableEq K] (k : K) (f : Option V → V)
    (l : List (K × V)) :
    (modifyL k f l).map Prod.fst =
      if k ∈ l.map Prod.fst then l.map Prod.fst else l.map Prod.fst ++ [k] := by
  induction l with
  | nil => simp [modifyL]
  | cons e l ih =>
    by_cases he : e.1 = k
    · simp [modifyL, he]
    · have h2 : ¬ k = e.1 := fun hh => he hh.symm
      by_cases hm : k ∈ l.map Prod.fst
      · simp only [modifyL, he, if_false, List.map_cons, ih, hm, if_true, List.mem_cons, or_true]
      · simp only [modifyL, he, if_false, List.map_cons, ih, hm, List.mem_cons, h2, or_self,
          List.cons_append]

theorem nodup_keys_modifyL {K V : Type} [DecidableEq K] (k : K) (f : Option V → V)
    (l : List (K × V)) (h : (l.map Prod.fst).Nodup) : ((modifyL k f l).map Prod.fst).Nodup := by
  rw [keys_modifyL]
  by_cases hm : k ∈ l.map Prod.fst
  · simpa [hm] using h
  · rw [if_neg hm]
    apply List.Nodup.append h (List.nodup_singleton k)
    intro a ha hb
    rw [List.mem_singleton] at hb
    subst hb
    exact hm ha

theorem mem_modifyL {K V : Type} [DecidableEq K] (k : K) (f : Option V → V)
    (l : List (K × V)) (e : K × V) (he : e ∈ modifyL k f l) :
    e ∈ l ∨ e = (k, f (lookupL k l)) := by
  induction l with
  | nil =>
    simp only [modifyL, List.mem_singleton] at he
    exact Or.inr (by simpa [lookupL] using he)
  | cons x l ih =>
    by_cases hx : x.1 = k
    · simp only [modifyL, hx, if_true, List.mem_cons] at he
      rcases he with he | he
      · exact Or.inr (by simpa [lookupL, hx] using he)
      · exact Or.inl (List.mem_cons_of_mem _ he)
    · simp only [modifyL, hx, if_false, List.mem_cons] at he
      rcases he with he | he
      · exact Or.inl (by simp [he])
      · rcases ih he with h | h
        · exact Or.inl (List.mem_cons_of_mem _ h)
        · exact Or.inr (by simpa [lookupL, hx] using h)

theorem StdMap.find_update {K V : Type} [DecidableEq K] (m : StdMap K V) (k k2 : K) (dflt : V)
    (f : V → V) :
    (m.update k dflt f).find k2 =
      if k2 = k then some (f ((m.find k).getD dflt)) else m.find k2 := by
  simp only [StdMap.update, StdMap.find, lookupL_modifyL]

theorem StdMap.find_empty {K V : Type} [DecidableEq K] (k : K) :
    (⟨[]⟩ : StdMap K V).find k = none := rfl

theorem HaloMap.find3_update3 (h : HaloMap) (p p2 : String) (s s2 : Bool) (k k2 : Int)
    (f : IntTuple → IntTuple) :
    HaloMap.find3 (HaloMap.update3 h p s k f) p2 s2 k2 =
      if p2 = p ∧ s2 = s ∧ k2 = k then some (f ((HaloMap.find3 h p s k).getD ⟨[]⟩))
      else HaloMap.find3 h p2 s2 k2 := by
  unfold HaloMap.find3 HaloMap.update3
  rw [StdMap.find_update]
  by_cases hp : p2 = p
  · subst hp
    rw [if_pos rfl, Option.some_bind, StdMap.find_update]
    by_cases hs : s2 = s
    · subst hs
      rw [if_pos rfl, Option.some_bind, StdMap.find_update]
      by_cases hk : k2 = k
      · subst hk
        rw [if_pos rfl, if_pos ⟨rfl, rfl, rfl⟩]
        cases h1 : StdMap.find h p2 with
        | none => simp [StdMap.find_empty]
        | some h2 =>
          cases h3 : h2.find s2 with
          | none => simp [h3, StdMap.find_empty]
          | some m => simp [h3]
      · rw [if_neg hk, if_neg (fun hh => hk hh.2.2)]
        cases h1 : StdMap.find h p2 with
        | none => simp [StdMap.find_empty]
        | some h2 =>
          cases h3 : h2.find s2 with
          | none => simp [h3, StdMap.find_empty]
          | some m => simp [h3]
    · rw [if_neg hs, if_neg (fun hh => hs hh.2.1)]
      cases h1 : StdMap.find h p2 with
      | none => simp [StdMap.find_empty]
      | some h2 => simp
  · rw [if_neg hp, if_neg (fun hh => hp hh.1)]

theorem IntTuple.lookup_setMax (t : IntTuple) (dim d : String) (val : Int) :
    (t.setMax dim val).lookup d =
      if d = dim then
        some (match t.lookup dim with
              | none => val
              | some v => max v val)
      else t.lookup d := by
  simp only [IntTuple.setMax, IntTuple.lookup, lookupL_modifyL]

theorem IntTuple.lookup_empty (d : String) : (⟨[]⟩ : IntTuple).lookup d = none := rfl

/-! ## Theorems: `updateHalo(packName, offsets)` -/

theorem lookupL_map_pair {K K2 W : Type} [DecidableEq K] [DecidableEq K2] (a c : K) (b : K2)
    (l : List (K2 × W)) :
    lookupL (a, b) (l.map (fun x => ((c, x.1), x.2))) =
      if c = a then lookupL b l else none := by
  induction l with
  | nil => simp [lookupL]
  | cons x l ih =>
    by_cases hc : c = a
    · subst hc
      by_cases hb : x.1 = b
      · simp [lookupL, hb]
      · simp [lookupL, hb, ih]
    · simp [lookupL, hc, ih]

theorem lookupL_flatten2 {K K2 V W : Type} [DecidableEq K] [DecidableEq K2]
    (inner : V → List (K2 × W)) (l : List (K × V)) (hl : (l.map Prod.fst).Nodup)
    (a : K) (b : K2) :
    lookupL (a, b) (flatten2 inner l) = (lookupL a l).bind (fun v => lookupL b (inner v)) := by
  induction l with
  | nil => simp [flatten2, lookupL]
  | cons e l ih =>
    simp only [List.map_cons, List.nodup_cons] at hl
    have ih2 := ih hl.2
    simp only [flatten2, List.flatMap_cons] at ih2 ⊢
    rw [lookupL_append, lookupL_map_pair, ih2]
    by_cases he : e.1 = a
    · subst he
      have hnone : lookupL e.1 l = none := (lookupL_eq_none_iff _ _).2 hl.1
      simp only [if_true, lookupL, hnone, Option.none_bind, Option.some_bind]
      cases lookupL b (inner e.2) <;> simp
    · simp [lookupL, he]

theorem keys_flatten2_fst {K K2 V W : Type} (inner : V → List (K2 × W)) (l : List (K × V))
    (x : K × K2) (hx : x ∈ (flatten2 inner l).map Prod.fst) : x.1 ∈ l.map Prod.fst := by
  simp only [flatten2, List.mem_map, List.mem_flatMap] at hx ⊢
  obtain ⟨y, ⟨e, he, z, _, hz⟩, hy⟩ := hx
  refine ⟨e, he, ?_⟩
  rw [← hy, ← hz]

theorem nodup_keys_flatten2 {K K2 V W : Type} (inner : V → List (K2 × W)) (l : List (K × V))
    (hl : (l.map Prod.fst).Nodup) (hin : ∀ e ∈ l, ((inner e.2).map Prod.fst).Nodup) :
    ((flatten2 inner l).map Prod.fst).Nodup := by
  induction l with
  | nil => simp [flatten2]
  | cons e l ih =>
    simp only [List.map_cons, List.nodup_cons] at hl
    have ih2 := ih hl.2 (fun x hx => hin x (List.mem_cons_of_mem _ hx))
    have hsplit : flatten2 inner (e :: l) =
        (inner e.2).map (fun x => ((e.1, x.1), x.2)) ++ flatten2 inner l := by
      simp [flatten2]
    rw [hsplit, List.map_append]
    apply List.Nodup.append _ ih2
    · intro x hx1 hx2
      have h1 : x.1 = e.1 := by
        simp only [List.map_map, List.mem_map, Function.comp] at hx1
        obtain ⟨z, _, hz⟩ := hx1
        rw [← hz]
      have h2 := keys_flatten2_fst inner l x hx2
      rw [h1] at h2
      exact hl.1 h2
    · have hmap : ((inner e.2).map (fun x => ((e.1, x.1), x.2))).map Prod.fst =
          ((inner e.2).map Prod.fst).map (fun b => (e.1, b)) := by
        simp [List.map_map, Function.comp]
      rw [hmap]
      apply List.Nodup.map _ (hin e (List.mem_cons_self _ _))
      intro b1 b2 hb
      exact (Prod.mk.injEq _ _ _ _ ▸ hb).2

theorem HaloMap.lookupL_flatten (h : HaloMap) (hw : HaloMap.wellFormed h) (p : String)
    (s : Bool) (k : Int) :
    lookupL (p, s, k) (HaloMap.flatten h) = HaloMap.find3 h p s k := by
  unfold HaloMap.flatten HaloMap.find3
  rw [lookupL_flatten2 _ _ hw.1]
  unfold StdMap.find
  cases h1 : lookupL p h.entries with
  | none => rfl
  | some h2 =>
    have hmem := lookupL_mem p h2 h.entries h1
    have hu2 := (hw.2 (p, h2) hmem).1
    simp only [Option.some_bind]
    rw [lookupL_flatten2 _ _ hu2]

theorem HaloMap.nodup_keys_flatten (h : HaloMap) (hw : HaloMap.wellFormed h) :
    ((HaloMap.flatten h).map Prod.fst).Nodup := by
  unfold HaloMap.flatten
  apply nodup_keys_flatten2 _ _ hw.1
  intro hi hmem
  apply nodup_keys_flatten2 _ _ (hw.2 hi hmem).1
  intro i0 hi0
  exact (hw.2 hi hmem).2 i0 hi0

/-! ## Theorems: `updateHalo(other)` -/

/-- One merge step, seen at one entry of the halo map. -/
theorem Grid.haloAt_merge_step (g : Grid) (e : (String × Bool × Int) × IntTuple)
    (p : String) (s : Bool) (k : Int) (d : String) :
    Grid.haloAt
        { g with
          _halos := HaloMap.update3 g._halos e.1.1 e.1.2.1 e.1.2.2
            (fun t => (t.makeUnionWith e.2).maxElements e.2) } p s k d =
      if (p, s, k) = e.1 then optMax (g.haloAt p s k d) (e.2.lookup d) else g.haloAt p s k d := by
  simp only [Grid.haloAt, HaloMap.find3_update3]
  by_cases hkey : (p, s, k) = e.1
  · have h1 : p = e.1.1 := by rw [← hkey]
    have h2 : s = e.1.2.1 := by rw [← hkey]
    have h3 : k = e.1.2.2 := by rw [← hkey]
    rw [if_pos ⟨h1, h2, h3⟩, if_pos hkey, Option.some_bind, IntTuple.lookup_union_max,
      ← h1, ← h2, ← h3]
    cases h4 : HaloMap.find3 g._halos p s k with
    | none => simp [IntTuple.lookup_empty]
    | some t => simp
  · rw [if_neg hkey, if_neg]
    rintro ⟨h1, h2, h3⟩
    apply hkey
    rw [h1, h2, h3]

theorem Grid.haloAt_merge_foldl (l : List ((String × Bool × Int) × IntTuple))
    (hl : (l.map Prod.fst).Nodup) (g : Grid) (p : String) (s : Bool) (k : Int) (d : String) :
    (l.foldl
      (fun g2 e =>
        { g2 with
          _halos := HaloMap.update3 g2._halos e.1.1 e.1.2.1 e.1.2.2
            (fun t => (t.makeUnionWith e.2).maxElements e.2) })
      g).haloAt p s k d =
      optMax (g.haloAt p s k d) ((lookupL (p, s, k) l).bind (fun t => t.lookup d)) := by
  induction l generalizing g with
  | nil =>
    simp only [List.foldl_nil, lookupL, Option.none_bind]
    cases g.haloAt p s k d <;> rfl
  | cons e l ih =>
    simp only [List.map_cons, List.nodup_cons] at hl
    simp only [List.foldl_cons]
    rw [ih hl.2, Grid.haloAt_merge_step]
    by_cases hkey : (p, s, k) = e.1
    · have hnone : lookupL (p, s, k) l = none := by
        rw [hkey]
        exact (lookupL_eq_none_iff _ _).2 hl.1
      have hkey2 : e.1 = (p, s, k) := hkey.symm
      simp only [hkey, if_true, lookupL, hnone, Option.none_bind, Option.some_bind]
      rw [← hkey, hnone]
      cases optMax (g.haloAt p s k d) (e.2.lookup d) <;> rfl
    · have hkey2 : ¬ e.1 = (p, s, k) := fun hh => hkey hh.symm
      simp only [hkey, if_false, lookupL, hkey2]

/-- After `updateHalo(other)` every entry is the optional maximum of the two grids' entries. -/
theorem Grid.haloAt_updateHaloFromGrid (g other : Grid)
    (hw : HaloMap.wellFormed other._halos) (p : String) (s : Bool) (k : Int) (d : String) :
    (g.updateHaloFromGrid other).haloAt p s k d =
      optMax (g.haloAt p s k d) (other.haloAt p s k d) := by
  unfold Grid.updateHaloFromGrid
  rw [Grid.haloAt_merge_foldl _ (HaloMap.nodup_keys_flatten _ hw), HaloMap.lookupL_flatten _ hw]
  rfl

/-! ### The representation invariant is kept -/

theorem StdMap.uniqueKeys_update {K V : Type} [DecidableEq K] (m : StdMap K V) (k : K)
    (dflt : V) (f : V → V) (h : m.uniqueKeys) : (m.update k dflt f).uniqueKeys :=
  nodup_keys_modifyL k _ m.entries h

theorem StdMap.forall_update {K V : Type} [DecidableEq K] (m : StdMap K V) (k : K)
    (dflt : V) (f : V → V) (P : V → Prop) (hm : ∀ e ∈ m.entries, P e.2)
    (hf : ∀ v, P v → P (f v)) (hd : P dflt) : ∀ e ∈ (m.update k dflt f).entries, P e.2 := by
  intro e he
  rcases mem_modifyL k _ m.entries e he with h | h
  · exact hm e h
  · rw [h]
    apply hf
    cases h1 : lookupL k m.entries with
    | none => exact hd
    | some v => exact hm (k, v) (lookupL_mem k v m.entries h1)

theorem HaloMap.wellFormed_update3 (h : HaloMap) (hw : HaloMap.wellFormed h) (p : String)
    (s : Bool) (k : Int) (f : IntTuple → IntTuple) :
    HaloMap.wellFormed (HaloMap.update3 h p s k f) := by
  refine ⟨StdMap.uniqueKeys_update _ _ _ _ hw.1, ?_⟩
  apply StdMap.forall_update h p ⟨[]⟩ _
    (fun h2 : StdMap Bool (StdMap Int IntTuple) =>
      h2.uniqueKeys ∧ ∀ i0 ∈ h2.entries, i0.2.uniqueKeys) hw.2
  · intro h2 hh2
    refine ⟨StdMap.uniqueKeys_update _ _ _ _ hh2.1, ?_⟩
    apply StdMap.forall_update h2 s ⟨[]⟩ _ (fun m : StdMap Int IntTuple => m.uniqueKeys) hh2.2
    · intro m hm
      exact StdMap.uniqueKeys_update _ _ _ _ hm
    · exact List.nodup_nil
  · exact ⟨List.nodup_nil, fun i0 hi0 => by simp at hi0⟩

theorem Grid.wellFormed_merge_foldl (l : List ((String × Bool × Int) × IntTuple)) (g : Grid)
    (hw : HaloMap.wellFormed g._halos) :
    HaloMap.wellFormed (l.foldl
      (fun g2 e =>
        { g2 with
          _halos := HaloMap.update3 g2._halos e.1.1 e.1.2.1 e.1.2.2
            (fun t => (t.makeUnionWith e.2).maxElements e.2) })
      g)._halos := by
  induction l generalizing g with
  | nil => exact hw
  | cons e l ih =>
    simp only [List.foldl_cons]
    apply ih
    exact HaloMap.wellFormed_update3 _ hw _ _ _ _

theorem Grid.wellFormed_updateHaloFromGrid (g other : Grid)
    (hw : HaloMap.wellFormed g._halos) :
    HaloMap.wellFormed (g.updateHaloFromGrid other)._halos :=
  Grid.wellFormed_merge_foldl _ g hw

/-! ### Reduced halos as maxima over the step offsets -/

theorem IsSupOf.unique (f : Int → Option Int) (o o2 : Option Int) (h : IsSupOf f o)
    (h2 : IsSupOf f o2) : o = o2 := by
  cases o with
  | none =>
    cases o2 with
    | none => rfl
    | some v2 =>
      obtain ⟨k, hk⟩ := h2.2 v2 rfl
      obtain ⟨v, hv, _⟩ := h.1 k v2 hk
      simp at hv
  | some v =>
    obtain ⟨k, hk⟩ := h.2 v rfl
    obtain ⟨v2, hv2, hle⟩ := h2.1 k v hk
    obtain ⟨k2, hk2⟩ := h2.2 v2 hv2
    obtain ⟨v3, hv3, hle2⟩ := h.1 k2 v2 hk2
    simp only [Option.some.injEq] at hv3
    subst hv3
    rw [hv2, le_antisymm hle hle2]

theorem optMax_eq_some_ge_left (a b : Option Int) (x : Int) (ha : a = some x) :
    ∃ v, optMax a b = some v ∧ x ≤ v := by
  subst ha
  cases b with
  | none => exact ⟨x, rfl, le_refl x⟩
  | some y => exact ⟨max x y, rfl, le_max_left x y⟩

theorem optMax_eq_some_ge_right (a b : Option Int) (y : Int) (hb : b = some y) :
    ∃ v, optMax a b = some v ∧ y ≤ v := by
  subst hb
  cases a with
  | none => exact ⟨y, rfl, le_refl y⟩
  | some x => exact ⟨max x y, rfl, le_max_right x y⟩

theorem IsSupOf.optMax (fa fb : Int → Option Int) (a b : Option Int) (ha : IsSupOf fa a)
    (hb : IsSupOf fb b) : IsSupOf (fun k => optMax (fa k) (fb k)) (optMax a b) := by
  constructor
  · intro k w hw
    simp only at hw
    cases h1 : fa k with
    | none =>
      cases h2 : fb k with
      | none => simp [h1, h2, yask.optMax] at hw
      | some y =>
        simp only [h1, h2, yask.optMax, Option.some.injEq] at hw
        subst hw
        obtain ⟨vb, hvb, hle⟩ := hb.1 k y h2
        obtain ⟨v, hv, hle2⟩ := optMax_eq_some_ge_right a b vb hvb
        exact ⟨v, hv, le_trans hle hle2⟩
    | some x =>
      obtain ⟨va, hva, hle⟩ := ha.1 k x h1
      obtain ⟨v, hv, hle2⟩ := optMax_eq_some_ge_left a b va hva
      cases h2 : fb k with
      | none =>
        simp only [h1, h2, yask.optMax, Option.some.injEq] at hw
        subst hw
        exact ⟨v, hv, le_trans hle hle2⟩
      | some y =>
        simp only [h1, h2, yask.optMax, Option.some.injEq] at hw
        subst hw
        obtain ⟨vb, hvb, hleb⟩ := hb.1 k y h2
        obtain ⟨v2, hv2, hle3⟩ := optMax_eq_some_ge_right a b vb hvb
        rw [hv] at hv2
        simp only [Option.some.injEq] at hv2
        subst hv2
        exact ⟨v, hv, max_le (le_trans hle hle2) (le_trans hleb hle3)⟩
  · intro v hv
    cases a with
    | none =>
      cases b with
      | none => simp [yask.optMax] at hv
      | some vb =>
        simp only [yask.optMax, Option.some.injEq] at hv
        subst hv
        obtain ⟨k, hk⟩ := hb.2 vb rfl
        refine ⟨k, ?_⟩
        cases h1 : fa k with
        | none => simp [hk, h1, yask.optMax]
        | some x =>
          obtain ⟨va, hva, _⟩ := ha.1 k x h1
          simp at hva
    | some va =>
      obtain ⟨k1, hk1⟩ := ha.2 va rfl
      cases b with
      | none =>
        simp only [yask.optMax, Option.some.injEq] at hv
        subst hv
        refine ⟨k1, ?_⟩
        cases h2 : fb k1 with
        | none => simp [hk1, h2, yask.optMax]
        | some y =>
          obtain ⟨vb, hvb, _⟩ := hb.1 k1 y h2
          simp at hvb
      | some vb =>
        obtain ⟨k2, hk2⟩ := hb.2 vb rfl
        simp only [yask.optMax, Option.some.injEq] at hv
        subst hv
        rcases le_total vb va with hle | hle
        · refine ⟨k1, ?_⟩
          simp only [hk1]
          cases h2 : fb k1 with
          | none => simp [yask.optMax, max_eq_left hle]
          | some y =>
            obtain ⟨vb2, hvb2, hy⟩ := hb.1 k1 y h2
            simp only [Option.some.injEq] at hvb2
            subst hvb2
            simp [yask.optMax, max_eq_left hle, max_eq_left (le_trans hy hle)]
        · refine ⟨k2, ?_⟩
          simp only [hk2]
          cases h1 : fa k2 with
          | none => simp [yask.optMax, max_eq_right hle]
          | some x =>
            obtain ⟨va2, hva2, hx⟩ := ha.1 k2 x h1
            simp only [Option.some.injEq] at hva2
            subst hva2
            simp [yask.optMax, max_eq_right hle, max_eq_right (le_trans hx hle)]

theorem Grid.mem_stepEntries_of_find3 (g : Grid) (p : String) (s : Bool) (k : Int)
    (t : IntTuple) (h : HaloMap.find3 g._halos p s k = some t) : (k, t) ∈ g.stepEntries p s := by
  unfold HaloMap.find3 at h
  unfold Grid.stepEntries
  cases h1 : StdMap.find g._halos p with
  | none => simp [h1] at h
  | some h2 =>
    rw [h1] at h
    simp only [Option.some_bind] at h
    cases h3 : h2.find s with
    | none => simp [h3] at h
    | some m =>
      rw [h3] at h
      simp only [Option.some_bind] at h
      simp only [h3]
      exact lookupL_mem k t m.entries h

theorem Grid.find3_of_mem_stepEntries (g : Grid) (hw : HaloMap.wellFormed g._halos)
    (p : String) (s : Bool) (e : Int × IntTuple) (h : e ∈ g.stepEntries p s) :
    HaloMap.find3 g._halos p s e.1 = some e.2 := by
  unfold HaloMap.find3
  unfold Grid.stepEntries at h
  cases h1 : StdMap.find g._halos p with
  | none => simp [h1] at h
  | some h2 =>
    rw [h1] at h
    simp only at h
    cases h3 : h2.find s with
    | none => simp [h3] at h
    | some m =>
      rw [h3] at h
      simp only at h
      simp only [Option.some_bind, h3]
      have hm1 := lookupL_mem p h2 _ h1
      have hm2 := lookupL_mem s m _ h3
      exact lookupL_of_mem_nodup e.1 e.2 m.entries ((hw.2 _ hm1).2 _ hm2) h

/-- The reduced halo of a (pack, side) pair is, dimension by dimension, the largest
entry over the step offsets. -/
theorem Grid.getHaloSizes_isSupOf (g : Grid) (hw : HaloMap.wellFormed g._halos) (p : String)
    (s : Bool) (d : String) :
    IsSupOf (fun k => g.haloAt p s k d) ((g.getHaloSizes p s).lookup d) := by
  constructor
  · intro k w hk
    simp only [Grid.haloAt] at hk
    cases h1 : HaloMap.find3 g._halos p s k with
    | none => simp [h1] at hk
    | some t =>
      rw [h1] at hk
      simp only [Option.some_bind] at hk
      have hmem := Grid.mem_stepEntries_of_find3 g p s k t h1
      have hsome : ((g.getHaloSizes p s).lookup d).isSome = true :=
        (Grid.getHaloSizes_lookup_isSome g p s d).2 ⟨(k, t), hmem, by simp [hk]⟩
      obtain ⟨v, hv⟩ := Option.isSome_iff_exists.1 hsome
      exact ⟨v, hv, ((Grid.getHaloSizes_lookup_eq_some g p s d v).1 hv).2 (k, t) hmem w hk⟩
  · intro v hv
    obtain ⟨⟨e, he, hev⟩, _⟩ := (Grid.getHaloSizes_lookup_eq_some g p s d v).1 hv
    refine ⟨e.1, ?_⟩
    simp only [Grid.haloAt, Grid.find3_of_mem_stepEntries g hw p s e he, Option.some_bind, hev]

/-- After `updateHalo(other)` the reduced halo of every (pack, side) pair is the
dimension-wise optional maximum of the two reduced halos. -/
theorem Grid.getHaloSizes_updateHaloFromGrid (g other : Grid)
    (hg : HaloMap.wellFormed g._halos) (ho : HaloMap.wellFormed other._halos)
    (p : String) (s : Bool) (d : String) :
    ((g.updateHaloFromGrid other).getHaloSizes p s).lookup d =
      optMax ((g.getHaloSizes p s).lookup d) ((other.getHaloSizes p s).lookup d) := by
  apply IsSupOf.unique (fun k => (g.updateHaloFromGrid other).haloAt p s k d)
  · exact Grid.getHaloSizes_isSupOf _ (Grid.wellFormed_updateHaloFromGrid g other hg) p s d
  · have hfun : (fun k => (g.updateHaloFromGrid other).haloAt p s k d) =
        fun k => optMax (g.haloAt p s k d) (other.haloAt p s k d) := by
      funext k
      exact Grid.haloAt_updateHaloFromGrid g other ho p s k d
    rw [hfun]
    exact IsSupOf.optMax _ _ _ _ (Grid.getHaloSizes_isSupOf g hg p s d)
      (Grid.getHaloSizes_isSupOf other ho p s d)

/-! ### `isHaloSame` after `updateHalo(other)` -/

theorem IntTuple.sameSizes_iff (t u : IntTuple) :
    t.sameSizes u = true ↔ ∀ d : String, t.lookup d = u.lookup d := by
  unfold IntTuple.sameSizes
  simp only [Bool.and_eq_true, List.all_eq_true, decide_eq_true_eq]
  constructor
  · rintro ⟨h1, h2⟩ d
    by_cases hd : d ∈ t.getDimNames
    · exact h1 d hd
    · by_cases hd2 : d ∈ u.getDimNames
      · exact h2 d hd2
      · have e1 : t.lookup d = none := (lookupL_eq_none_iff d t._q).2 hd
        have e2 : u.lookup d = none := (lookupL_eq_none_iff d u._q).2 hd2
        rw [e1, e2]
  · intro h
    exact ⟨fun d _ => h d, fun d _ => h d⟩

theorem Grid.getHaloSizes_of_not_mem_packSides (g : Grid) (p : String) (s : Bool)
    (h : (p, s) ∉ g.packSides) : g.getHaloSizes p s = ⟨[]⟩ := by
  unfold Grid.getHaloSizes
  cases h1 : StdMap.find g._halos p with
  | none => rfl
  | some h2 =>
    cases h3 : h2.find s with
    | none => simp only [h3]
    | some m =>
      exfalso
      apply h
      unfold Grid.packSides
      rw [List.mem_flatMap]
      exact ⟨(p, h2), lookupL_mem p h2 _ h1,
        List.mem_map.2 ⟨(s, m), lookupL_mem s m _ h3, rfl⟩⟩

theorem Grid.isHaloSame_iff (g other : Grid) :
    g.isHaloSame other = true ↔
      ∀ (p : String) (s : Bool) (d : String),
        (g.getHaloSizes p s).lookup d = (other.getHaloSizes p s).lookup d := by
  unfold Grid.isHaloSame
  simp only [List.all_eq_true, IntTuple.sameSizes_iff, List.mem_append]
  constructor
  · intro h p s d
    by_cases h1 : (p, s) ∈ g.packSides
    · exact h (p, s) (Or.inl h1) d
    · by_cases h2 : (p, s) ∈ other.packSides
      · exact h (p, s) (Or.inr h2) d
      · rw [Grid.getHaloSizes_of_not_mem_packSides g p s h1,
          Grid.getHaloSizes_of_not_mem_packSides other p s h2]
  · intro h ps _ d
    exact h ps.1 ps.2 d

theorem optMax_eq_right_iff (a b : Option Int) :
    optMax a b = b ↔ ∀ v : Int, a = some v → ∃ w : Int, b = some w ∧ v ≤ w := by
  cases a with
  | none => simp [optMax]
  | some x =>
    cases b with
    | none => simp [optMax]
    | some y => simp [optMax]

/-- C3, as amended (against the models of `updateHalo(other)` and `isHaloSame`
written from the specification): for two grids `A` and `B` with well-formed halo
maps, after `A.updateHalo(B)` the value of every dimension in
`A.getHaloSizes(pack, side)` is, for every (pack, side) pair, the maximum of
`A`'s value before the call and `B`'s value (the value of the one that has it
when only one has it); and `A.isHaloSame(B)` is then true exactly when `B`'s
reduced halos covered `A`'s before the call. -/
theorem Grid.updateHaloFromGrid_reduced_halos (A B : Grid)
    (hA : HaloMap.wellFormed A._halos) (hB : HaloMap.wellFormed B._halos) :
    (∀ (p : String) (s : Bool) (d : String),
        ((A.updateHaloFromGrid B).getHaloSizes p s).lookup d =
          optMax ((A.getHaloSizes p s).lookup d) ((B.getHaloSizes p s).lookup d)) ∧
    ((A.updateHaloFromGrid B).isHaloSame B = true ↔
      ∀ (p : String) (s : Bool) (d : String) (v : Int),
        (A.getHaloSizes p s).lookup d = some v →
          ∃ w : Int, (B.getHaloSizes p s).lookup d = some w ∧ v ≤ w) := by
  have h1 := Grid.getHaloSizes_updateHaloFromGrid A B hA hB
  refine ⟨h1, ?_⟩
  rw [Grid.isHaloSame_iff]
  constructor
  · intro h p s d
    have := h p s d
    rw [h1] at this
    exact (optMax_eq_right_iff _ _).1 this
  · intro h p s d
    rw [h1]
    exact (optMax_eq_right_iff _ _).2 (h p s d)

theorem Grid.updateHaloFromGrid_reduced_halos_witness :
    HaloMap.wellFormed narrowGrid._halos ∧ HaloMap.wellFormed wideGrid._halos ∧
      ((narrowGrid.updateHaloFromGrid wideGrid).getHaloSizes "p" false).lookup "x" =
        optMax ((narrowGrid.getHaloSizes "p" false).lookup "x")
          ((wideGrid.getHaloSizes "p" false).lookup "x") ∧
      ((narrowGrid.updateHaloFromGrid wideGrid).getHaloSizes "p" false).lookup "x" = some 5 :=
  ⟨by decide, by decide,
   (Grid.updateHaloFromGrid_reduced_halos narrowGrid wideGrid (by decide) (by decide)).1
     "p" false "x",
   by decide⟩

/-- C3 as stated fails: merging a narrower halo into a wider one leaves the wider
one, so the two grids do not have the same halo afterwards, although the pair
(`p`, right) is present in the merged-in grid. -/
theorem Grid.updateHaloFromGrid_isHaloSame_counterexample :
    HaloMap.wellFormed wideGrid._halos ∧ HaloMap.wellFormed narrowGrid._halos ∧
      ("p", false) ∈ narrowGrid.packSides ∧
      (wideGrid.updateHaloFromGrid narrowGrid).getHaloSizes "p" false = ⟨[("x", 5)]⟩ ∧
      narrowGrid.getHaloSizes "p" false = ⟨[("x", 1)]⟩ ∧
      (wideGrid.updateHaloFromGrid narrowGrid).isHaloSame narrowGrid = false := by
  decide

/-! ## Theorems: fold eligibility -/

theorem Grid.countFoldableDims_eq (dims : Dimensions) (l : List IndexExpr) :
    Grid.countFoldableDims dims l =
      ((l.filter (fun d => decide (d._name ∈ dims._fold.getDimNames))).length : Int) := by
  induction l with
  | nil => rfl
  | cons d l ih =>
    have hiff : (dims._fold.lookup d._name).isSome = true ↔ d._name ∈ dims._fold.getDimNames :=
      lookupL_isSome_iff d._name dims._fold._q
    by_cases h : d._name ∈ dims._fold.getDimNames
    · have h2 := hiff.2 h
      simp only [Grid.countFoldableDims, h2, if_true, ih, List.filter_cons, h, decide_True,
        List.length_cons]
      push_cast
      rfl
    · have h2 : ¬ (dims._fold.lookup d._name).isSome = true := fun hh => h (hiff.1 hh)
      simp only [Grid.countFoldableDims, h2, ih, List.filter_cons, h, decide_False]
      rfl

/-- C5 (against the model of `setFolding` written from the specification): after
`setFolding(dims)`, `numFoldableDims` is the number of dimensions of the grid's
dimension list that the fold-point shape has, `isFoldable` is true iff that
count is positive, i.e. iff at least one dimension of the grid is a fold
dimension, and the fold queries then succeed.  With the dimension list
{x, y, t(step)} and a fold shape over {x, y} the results are 2 and true; with
the dimension list {misc1} they are 0 and false. -/
theorem Grid.setFolding_counts (g : Grid) (dims : Dimensions) :
    (g.setFolding dims)._numFoldableDims =
        ((g._dims.filter (fun d => decide (d._name ∈ dims._fold.getDimNames))).length : Int) ∧
    ((g.setFolding dims)._isFoldable = true ↔ 0 < (g.setFolding dims)._numFoldableDims) ∧
    ((g.setFolding dims)._isFoldable = true ↔
        ∃ d ∈ g._dims, d._name ∈ dims._fold.getDimNames) ∧
    (g.setFolding dims).getNumFoldableDims = some (g.setFolding dims)._numFoldableDims ∧
    (g.setFolding dims).isFoldable = some (g.setFolding dims)._isFoldable ∧
    (∀ (name : String) (isScratch : Bool) (a b : Int),
        ((Grid.new name isScratch
            [⟨"x", .DOMAIN_INDEX⟩, ⟨"y", .DOMAIN_INDEX⟩, ⟨"t", .STEP_INDEX⟩]).setFolding
          { dims with _fold := ⟨[("x", a), ("y", b)]⟩ })._numFoldableDims = 2 ∧
        ((Grid.new name isScratch
            [⟨"x", .DOMAIN_INDEX⟩, ⟨"y", .DOMAIN_INDEX⟩, ⟨"t", .STEP_INDEX⟩]).setFolding
          { dims with _fold := ⟨[("x", a), ("y", b)]⟩ })._isFoldable = true ∧
        ((Grid.new name isScratch [⟨"misc1", .MISC_INDEX⟩]).setFolding
          { dims with _fold := ⟨[("x", a), ("y", b)]⟩ })._numFoldableDims = 0 ∧
        ((Grid.new name isScratch [⟨"misc1", .MISC_INDEX⟩]).setFolding
          { dims with _fold := ⟨[("x", a), ("y", b)]⟩ })._isFoldable = false) := by
  have hcount : (g.setFolding dims)._numFoldableDims =
      ((g._dims.filter (fun d => decide (d._name ∈ dims._fold.getDimNames))).length : Int) :=
    Grid.countFoldableDims_eq dims g._dims
  have hflag : (g.setFolding dims)._isFoldable = true ↔ 0 < (g.setFolding dims)._numFoldableDims := by
    simp [Grid.setFolding]
  have hnn : 0 ≤ (g.setFolding dims)._numFoldableDims := by
    rw [hcount]
    exact Int.natCast_nonneg _
  refine ⟨hcount, hflag, ?_, ?_, ?_, ?_⟩
  · rw [hflag, hcount]
    simp only [Int.natCast_pos, List.length_pos_iff_exists_mem, List.mem_filter,
      decide_eq_true_eq]
  · simp [Grid.getNumFoldableDims, hnn]
  · simp [Grid.isFoldable, hnn]
  · intro name isScratch a b
    simp [Grid.setFolding, Grid.countFoldableDims, Grid.new, IntTuple.lookup, lookupL]

/-- C6: `getNumFoldableDims` and `isFoldable` fail exactly when the stored
`numFoldableDims` is negative; a newly constructed grid stores -1, so both fail
on it; otherwise they return the stored count and the stored flag. -/
theorem Grid.fold_queries_assert (g : Grid) :
    (g.getNumFoldableDims = none ↔ g._numFoldableDims < 0) ∧
    (g.isFoldable = none ↔ g._numFoldableDims < 0) ∧
    (∀ (name : String) (isScratch : Bool) (dims : List IndexExpr),
        (Grid.new name isScratch dims)._numFoldableDims = -1 ∧
        (Grid.new name isScratch dims).getNumFoldableDims = none ∧
        (Grid.new name isScratch dims).isFoldable = none) ∧
    g.getNumFoldableDims =
        (if g._numFoldableDims < 0 then none else some g._numFoldableDims) ∧
    g.isFoldable = (if g._numFoldableDims < 0 then none else some g._isFoldable) := by
  refine ⟨?_, ?_, ?_, ?_, ?_⟩
  · unfold Grid.getNumFoldableDims
    by_cases h : 0 ≤ g._numFoldableDims
    · simp [h]
    · simp [h]
      omega
  · unfold Grid.isFoldable
    by_cases h : 0 ≤ g._numFoldableDims
    · simp [h]
    · simp [h]
      omega
  · intro name isScratch dims
    exact ⟨rfl, rfl, rfl⟩
  · unfold Grid.getNumFoldableDims
    by_cases h : 0 ≤ g._numFoldableDims
    · simp [h]
    · have h2 : g._numFoldableDims < 0 := by omega
      simp [h, h2]
  · unfold Grid.isFoldable
    by_cases h : 0 ≤ g._numFoldableDims
    · simp [h]
    · have h2 : g._numFoldableDims < 0 := by omega
      simp [h, h2]

/-! ## Theorems: `Indices` -/

theorem Indices.ext_idxs {n : Nat} (a b : Indices n) (h : ∀ i, a._idxs i = b._idxs i) : a = b := by
  cases a; cases b
  congr
  funext i
  exact h i

theorem Indices.foldl_set_apply {n : Nat} (l : List (Fin n)) (a : Indices n) (v : Int)
    (i : Fin n) :
    (l.foldl (fun acc j => acc.set j v) a)._idxs i = if i ∈ l then v else a._idxs i := by
  induction l generalizing a with
  | nil => simp
  | cons j l ih =>
    simp only [List.foldl_cons, ih, List.mem_cons]
    by_cases h1 : i ∈ l
    · simp [h1]
    · by_cases h2 : i = j
      · simp [h1, h2, Indices.set]
      · simp [h1, h2, Indices.set]

theorem Indices.setFromConst_apply {n : Nat} (a : Indices n) (v : Int) (i : Fin n) :
    (a.setFromConst v)._idxs i = v := by
  unfold Indices.setFromConst
  rw [Indices.foldl_set_apply, if_pos (List.mem_finRange i)]

theorem Indices.ofConst_apply {n : Nat} (v : Int) (i : Fin n) :
    (Indices.ofConst v : Indices n)._idxs i = v :=
  Indices.setFromConst_apply _ v i

/-- A list of slots that is increasing puts before slot `i` exactly the slots below `i`. -/
theorem finRange_before {n : Nat} (pre post : List (Fin n)) (i : Fin n)
    (h : List.finRange n = pre ++ i :: post) (j : Fin n) : j ∈ pre ↔ j < i := by
  have hp := List.pairwise_lt_finRange n
  rw [h] at hp
  have hp2 := List.pairwise_append.1 hp
  constructor
  · intro hj
    exact hp2.2.2 j hj i (List.mem_cons_self _ _)
  · intro hj
    have hm : j ∈ pre ++ i :: post := by
      rw [← h]
      exact List.mem_finRange j
    rcases List.mem_append.1 hm with h1 | h1
    · exact h1
    · exfalso
      rcases List.mem_cons.1 h1 with h2 | h2
      · rw [h2] at hj
        exact lt_irrefl _ hj
      · have := (List.pairwise_cons.1 hp2.2.1).1 j h2
        exact lt_asymm hj this

theorem finRange_split {n : Nat} (i : Fin n) :
    ∃ pre post : List (Fin n), List.finRange n = pre ++ i :: post := by
  obtain ⟨pre, post, h⟩ := List.append_of_mem (List.mem_finRange i)
  exact ⟨pre, post, h⟩

theorem Indices.operator_eq_from_iff {n : Nat} (a b : Indices n) (l : List (Fin n)) :
    Indices.operator_eq_from a b l = true ↔ ∀ i ∈ l, a._idxs i = b._idxs i := by
  induction l with
  | nil => simp [Indices.operator_eq_from]
  | cons x l ih =>
    by_cases h : a._idxs x = b._idxs x
    · simp [Indices.operator_eq_from, h, ih]
    · simp [Indices.operator_eq_from, h]

theorem Indices.operator_lt_from_iff {n : Nat} (a b : Indices n) (l : List (Fin n)) :
    Indices.operator_lt_from a b l = true ↔
      ∃ pre i post, l = pre ++ i :: post ∧ a._idxs i < b._idxs i ∧
        ∀ j ∈ pre, a._idxs j = b._idxs j := by
  induction l with
  | nil => simp [Indices.operator_lt_from]
  | cons x l ih =>
    by_cases h1 : a._idxs x < b._idxs x
    · simp only [Indices.operator_lt_from, h1, if_true, true_iff]
      exact ⟨[], x, l, rfl, h1, by simp⟩
    · by_cases h2 : a._idxs x > b._idxs x
      · simp only [Indices.operator_lt_from, h1, h2, if_true, if_false, Bool.false_eq_true,
          false_iff]
        rintro ⟨pre, i, post, hl, hlt, hpre⟩
        cases pre with
        | nil =>
          simp only [List.nil_append, List.cons.injEq] at hl
          rw [← hl.1] at hlt
          exact h1 hlt
        | cons y pre =>
          simp only [List.cons_append, List.cons.injEq] at hl
          have := hpre y (List.mem_cons_self _ _)
          rw [← hl.1] at this
          rw [this] at h2
          exact lt_irrefl _ h2
      · simp only [Indices.operator_lt_from, h1, h2, if_false, ih]
        constructor
        · rintro ⟨pre, i, post, hl, hlt, hpre⟩
          refine ⟨x :: pre, i, post, by rw [hl]; rfl, hlt, ?_⟩
          intro j hj
          rcases List.mem_cons.1 hj with h3 | h3
          · rw [h3]
            exact le_antisymm (not_lt.1 h2) (not_lt.1 h1)
          · exact hpre j h3
        · rintro ⟨pre, i, post, hl, hlt, hpre⟩
          cases pre with
          | nil =>
            simp only [List.nil_append, List.cons.injEq] at hl
            rw [← hl.1] at hlt
            exact absurd hlt h1
          | cons y pre =>
            simp only [List.cons_append, List.cons.injEq] at hl
            exact ⟨pre, i, post, hl.2, hlt, fun j hj => hpre j (List.mem_cons_of_mem _ hj)⟩

theorem Indices.operator_gt_from_eq {n : Nat} (a b : Indices n) (l : List (Fin n)) :
    Indices.operator_gt_from a b l = Indices.operator_lt_from b a l := by
  induction l with
  | nil => rfl
  | cons x l ih =>
    simp only [Indices.operator_gt_from, Indices.operator_lt_from, ih, gt_iff_lt]

theorem Indices.operator_lt_iff {n : Nat} (a b : Indices n) :
    a.operator_lt b = true ↔
      ∃ i : Fin n, a._idxs i < b._idxs i ∧ ∀ j : Fin n, j < i → a._idxs j = b._idxs j := by
  unfold Indices.operator_lt
  rw [Indices.operator_lt_from_iff]
  constructor
  · rintro ⟨pre, i, post, hl, hlt, hpre⟩
    exact ⟨i, hlt, fun j hj => hpre j ((finRange_before pre post i hl j).2 hj)⟩
  · rintro ⟨i, hlt, hpre⟩
    obtain ⟨pre, post, hl⟩ := finRange_split i
    exact ⟨pre, i, post, hl, hlt, fun j hj => hpre j ((finRange_before pre post i hl j).1 hj)⟩

/-- C9: `operator<` and `operator>` are lexicographic over all `max_idxs` slots,
the tail slots included: `a < b` iff some slot `i` has `a[i] < b[i]` with all
earlier slots equal, and `a > b` iff some slot `i` has `a[i] > b[i]` with all
earlier slots equal.  `[1,2] < [1,3]` in every capacity that holds two values. -/
theorem Indices.operator_lt_gt_lexicographic {max_idxs : Nat} (a b : Indices max_idxs) :
    (a.operator_lt b = true ↔
      ∃ i : Fin max_idxs, a._idxs i < b._idxs i ∧
        ∀ j : Fin max_idxs, j < i → a._idxs j = b._idxs j) ∧
    (a.operator_gt b = true ↔
      ∃ i : Fin max_idxs, a._idxs i > b._idxs i ∧
        ∀ j : Fin max_idxs, j < i → a._idxs j = b._idxs j) ∧
    (∀ m : Nat,
      (Indices.ofList [1, 2] : Indices (m + 2)).operator_lt (Indices.ofList [1, 3]) = true ∧
      (Indices.ofList [1, 2] : Indices (m + 2)).operator_gt (Indices.ofList [1, 3]) = false) := by
  refine ⟨Indices.operator_lt_iff a b, ?_, ?_⟩
  · unfold Indices.operator_gt
    rw [Indices.operator_gt_from_eq]
    have := Indices.operator_lt_iff b a
    unfold Indices.operator_lt at this
    rw [this]
    constructor
    · rintro ⟨i, h1, h2⟩
      exact ⟨i, h1, fun j hj => (h2 j hj).symm⟩
    · rintro ⟨i, h1, h2⟩
      exact ⟨i, h1, fun j hj => (h2 j hj).symm⟩
  · intro m
    constructor
    · rw [Indices.operator_lt_iff]
      refine ⟨⟨1, by omega⟩, by simp [Indices.ofList], ?_⟩
      intro j hj
      have hj0 : j.val = 0 := by
        have : j.val < 1 := hj
        omega
      simp [Indices.ofList, hj0]
    · have hgt : (Indices.ofList [1, 2] : Indices (m + 2)).operator_gt (Indices.ofList [1, 3]) =
          (Indices.ofList [1, 3] : Indices (m + 2)).operator_lt (Indices.ofList [1, 2]) := by
        unfold Indices.operator_gt Indices.operator_lt
        exact Indices.operator_gt_from_eq _ _ _
      rw [hgt, Bool.eq_false_iff]
      intro hlt
      rw [Indices.operator_lt_iff] at hlt
      obtain ⟨i, h1, h2⟩ := hlt
      simp only [Indices.ofList] at h1 h2
      rcases Nat.lt_or_ge i.val 2 with h3 | h3
      · rcases Nat.lt_or_ge i.val 1 with h4 | h4
        · have : i.val = 0 := by omega
          simp [this] at h1
        · have : i.val = 1 := by omega
          simp [this] at h1
      · have h5 := h2 ⟨1, by omega⟩ (by
          show (1 : Nat) < i.val
          omega)
        simp at h5

/-- C10: `a == b` iff every one of the `max_idxs` slots agrees, so a difference in
any slot, a tail slot included, makes the vectors unequal; `a != b` is the
negation of `a == b`; `[1,2,0,...] == [1,2,0,...]`. -/
theorem Indices.operator_eq_all_slots {max_idxs : Nat} (a b : Indices max_idxs) :
    (a.operator_eq b = true ↔ ∀ i : Fin max_idxs, a._idxs i = b._idxs i) ∧
    (a.operator_eq b = true ↔ a = b) ∧
    (∀ i : Fin max_idxs, a._idxs i ≠ b._idxs i → a.operator_eq b = false) ∧
    a.operator_ne b = !a.operator_eq b ∧
    (a.operator_ne b = true ↔ ¬ (a.operator_eq b = true)) ∧
    (Indices.ofList [1, 2] : Indices max_idxs).operator_eq (Indices.ofList [1, 2]) = true := by
  have h1 : a.operator_eq b = true ↔ ∀ i : Fin max_idxs, a._idxs i = b._idxs i := by
    unfold Indices.operator_eq
    rw [Indices.operator_eq_from_iff]
    exact ⟨fun h i => h i (List.mem_finRange i), fun h i _ => h i⟩
  refine ⟨h1, ?_, ?_, rfl, ?_, ?_⟩
  · rw [h1]
    exact ⟨Indices.ext_idxs a b, fun h i => by rw [h]⟩
  · intro i hi
    rw [Bool.eq_false_iff]
    intro h
    exact hi (h1.1 h i)
  · simp [Indices.operator_ne]
  · unfold Indices.operator_eq
    rw [Indices.operator_eq_from_iff]
    intro i _
    rfl

/-! ## Theorems: `ScanIndices` -/

/-- C7: after `child.initFromOuter(outer)` the child's `begin` and `start` are
`outer.start`, its `end` and `stop` are `outer.stop` and its `index` is
`outer.index`, slot by slot, whatever the child was; with `outer.start = 4` and
`outer.stop = 10` the child has `begin = 4`, `end = 10`, `start = 4`,
`stop = 10`. -/
theorem ScanIndices.initFromOuter_copies {max_idxs : Nat} (child outer : ScanIndices max_idxs) :
    (child.initFromOuter outer).begin = outer.start ∧
    (child.initFromOuter outer).end_ = outer.stop ∧
    (child.initFromOuter outer).start = outer.start ∧
    (child.initFromOuter outer).stop = outer.stop ∧
    (child.initFromOuter outer).index = outer.index ∧
    (∀ i : Fin max_idxs,
      (child.initFromOuter outer).begin._idxs i = outer.start._idxs i ∧
      (child.initFromOuter outer).end_._idxs i = outer.stop._idxs i ∧
      (child.initFromOuter outer).start._idxs i = outer.start._idxs i ∧
      (child.initFromOuter outer).stop._idxs i = outer.stop._idxs i ∧
      (child.initFromOuter outer).index._idxs i = outer.index._idxs i) ∧
    (∀ i : Fin max_idxs,
      (child.initFromOuter
        { outer with start := Indices.ofConst 4, stop := Indices.ofConst 10 }).begin._idxs i = 4 ∧
      (child.initFromOuter
        { outer with start := Indices.ofConst 4, stop := Indices.ofConst 10 }).end_._idxs i = 10 ∧
      (child.initFromOuter
        { outer with start := Indices.ofConst 4, stop := Indices.ofConst 10 }).start._idxs i = 4 ∧
      (child.initFromOuter
        { outer with start := Indices.ofConst 4, stop := Indices.ofConst 10 }).stop._idxs i = 10) := by
  refine ⟨rfl, rfl, rfl, rfl, rfl, fun i => ⟨rfl, rfl, rfl, rfl, rfl⟩, fun i => ?_⟩
  simp only [ScanIndices.initFromOuter, Indices.ofConst_apply]
  exact ⟨trivial, trivial, trivial, trivial⟩

/-- C8, as amended: when the outer level's active sub-range lies inside its total
range (`outer.begin <= outer.start` and `outer.stop <= outer.end` in every
slot), the child's total range after `child.initFromOuter(outer)` lies inside
the outer level's total range. -/
theorem ScanIndices.initFromOuter_narrows {max_idxs : Nat} (child outer : ScanIndices max_idxs)
    (h : ∀ i : Fin max_idxs,
      outer.begin._idxs i ≤ outer.start._idxs i ∧ outer.stop._idxs i ≤ outer.end_._idxs i) :
    ∀ i : Fin max_idxs,
      outer.begin._idxs i ≤ (child.initFromOuter outer).begin._idxs i ∧
      (child.initFromOuter outer).end_._idxs i ≤ outer.end_._idxs i :=
  fun i => h i

theorem ScanIndices.initFromOuter_narrows_witness :
    (∀ i : Fin 4,
      (nestedOuter 4).begin._idxs i ≤ (nestedOuter 4).start._idxs i ∧
        (nestedOuter 4).stop._idxs i ≤ (nestedOuter 4).end_._idxs i) ∧
    (∀ i : Fin 4,
      (nestedOuter 4).begin._idxs i ≤
          (ScanIndices.new.initFromOuter (nestedOuter 4)).begin._idxs i ∧
        (ScanIndices.new.initFromOuter (nestedOuter 4)).end_._idxs i ≤
          (nestedOuter 4).end_._idxs i) :=
  ⟨by decide, ScanIndices.initFromOuter_narrows ScanIndices.new (nestedOuter 4) (by decide)⟩

/-- C8 as stated fails: `initFromOuter` copies `outer.start` and `outer.stop`
whatever `outer.begin` and `outer.end` are; for an outer level with total range
`[5, 6)` and active sub-range `[0, 10)` the child's range `[0, 10)` is not inside
`[5, 6)`. -/
theorem ScanIndices.initFromOuter_narrows_counterexample :
    (ScanIndices.new.initFromOuter (strayOuter 4)).begin._idxs 0 = 0 ∧
    (strayOuter 4).begin._idxs 0 = 5 ∧
    (ScanIndices.new.initFromOuter (strayOuter 4)).begin._idxs 0 < (strayOuter 4).begin._idxs 0 ∧
    (ScanIndices.new.initFromOuter (strayOuter 4)).end_._idxs 0 = 10 ∧
    (strayOuter 4).end_._idxs 0 = 6 ∧
    (strayOuter 4).end_._idxs 0 < (ScanIndices.new.initFromOuter (strayOuter 4)).end_._idxs 0 := by
  decide

/-! ## Theorems: element-wise operations on `Indices` -/

/-- A loop that assigns `f i` to every slot `i` leaves `f i` in slot `i`. -/
theorem Indices.foldl_set_fun_apply {n : Nat} (f : Fin n → Int) (l : List (Fin n))
    (a : Indices n) (i : Fin n) :
    (l.foldl (fun acc j => acc.set j (f j)) a)._idxs i = if i ∈ l then f i else a._idxs i := by
  induction l generalizing a with
  | nil => simp
  | cons j l ih =>
    simp only [List.foldl_cons, ih, List.mem_cons]
    by_cases h1 : i ∈ l
    · simp [h1]
    · by_cases h2 : i = j
      · subst h2
        simp [h1, Indices.set]
      · simp [h1, h2, Indices.set]

theorem Indices.foldl_set_fun_all {n : Nat} (f : Fin n → Int) (a : Indices n) (i : Fin n) :
    ((List.finRange n).foldl (fun acc j => acc.set j (f j)) a)._idxs i = f i := by
  rw [Indices.foldl_set_fun_apply, if_pos (List.mem_finRange i)]

theorem Indices.minElements_apply {n : Nat} (a b : Indices n) (i : Fin n) :
    (a.minElements b)._idxs i = min (a._idxs i) (b._idxs i) :=
  Indices.foldl_set_fun_all (fun j => min (a._idxs j) (b._idxs j)) Indices.zero i

theorem Indices.maxElements_apply {n : Nat} (a b : Indices n) (i : Fin n) :
    (a.maxElements b)._idxs i = max (a._idxs i) (b._idxs i) :=
  Indices.foldl_set_fun_all (fun j => max (a._idxs j) (b._idxs j)) Indices.zero i

theorem Indices.ofList_apply_two {n : Nat} (x y : Int) (i : Fin n) :
    (Indices.ofList [x, y] : Indices n)._idxs i =
      if i.val = 0 then x else if i.val = 1 then y else 0 := by
  simp only [Indices.ofList]
  rcases Nat.lt_or_ge i.val 1 with h | h
  · have h0 : i.val = 0 := by omega
    simp [h0]
  · rcases Nat.lt_or_ge i.val 2 with h2 | h2
    · have h1 : i.val = 1 := by omega
      simp [h1]
    · have e1 : ¬ i.val = 0 := by omega
      have e2 : ¬ i.val = 1 := by omega
      rw [if_neg e1, if_neg e2, List.getD_eq_default]
      simpa using h2

/-- C11: slot by slot, `a.minElements(b)` is `min(a[i], b[i])` and
`a.maxElements(b)` is `max(a[i], b[i])`, in every one of the `max_idxs` slots
(the operands are arguments of the functions and are not written); with
`A = [1,2]` and `C = [1,3]`, `A.maxElements(C) = [1,3]` and
`A.minElements(C) = [1,2]`. -/
theorem Indices.minElements_maxElements_slots {max_idxs : Nat} (a b : Indices max_idxs) :
    (∀ i : Fin max_idxs, (a.minElements b)._idxs i = min (a._idxs i) (b._idxs i)) ∧
    (∀ i : Fin max_idxs, (a.maxElements b)._idxs i = max (a._idxs i) (b._idxs i)) ∧
    (Indices.ofList [1, 2] : Indices max_idxs).maxElements (Indices.ofList [1, 3]) =
      Indices.ofList [1, 3] ∧
    (Indices.ofList [1, 2] : Indices max_idxs).minElements (Indices.ofList [1, 3]) =
      Indices.ofList [1, 2] := by
  refine ⟨Indices.minElements_apply a b, Indices.maxElements_apply a b, ?_, ?_⟩
  · apply Indices.ext_idxs
    intro i
    rw [Indices.maxElements_apply]
    simp only [Indices.ofList_apply_two]
    by_cases h0 : i.val = 0
    · simp [h0]
    · by_cases h1 : i.val = 1
      · simp [h1]
      · simp [h0, h1]
  · apply Indices.ext_idxs
    intro i
    rw [Indices.minElements_apply]
    simp only [Indices.ofList_apply_two]
    by_cases h0 : i.val = 0
    · simp [h0]
    · by_cases h1 : i.val = 1
      · simp [h1]
      · simp [h0, h1]

theorem wrapSigned_of_fits (bits : Nat) (hb : 0 < bits) (x : Int) (hx : fitsSigned bits x) :
    wrapSigned bits x = x := by
  unfold wrapSigned
  unfold fitsSigned at hx
  obtain ⟨k, hk⟩ : ∃ k, bits = k + 1 := ⟨bits - 1, by omega⟩
  subst hk
  simp only [Nat.add_sub_cancel] at hx ⊢
  have hpow : (2 : Int) ^ (k + 1) = 2 * 2 ^ k := by ring
  have hpos : (0 : Int) < 2 ^ k := by positivity
  rw [hpow, Int.emod_eq_of_lt (by omega) (by omega)]
  omega

theorem Indices.addElements_apply {n : Nat} (bits : Nat) (a : Indices n) (m : Int) (i : Fin n) :
    (a.addElements bits m)._idxs i = wrapSigned bits (a._idxs i + m) :=
  Indices.foldl_set_fun_all (fun j => wrapSigned bits (a._idxs j + m)) Indices.zero i

/-- C12: when no sum `a[i] + n` leaves the range of `idx_t` (a signed type of
`idx_bits > 0` bits), `a.addElements(n)` holds `a[i] + n` in every one of the
`max_idxs` slots, the tail slots included, so a slot that held 0 holds `n`; `a`
is an argument of the function and is not written. -/
theorem Indices.addElements_slots {max_idxs : Nat} (idx_bits : Nat) (hb : 0 < idx_bits)
    (a : Indices max_idxs) (n : Int)
    (hfit : ∀ i : Fin max_idxs, fitsSigned idx_bits (a._idxs i + n)) :
    (∀ i : Fin max_idxs, (a.addElements idx_bits n)._idxs i = a._idxs i + n) ∧
    (∀ i : Fin max_idxs, a._idxs i = 0 → (a.addElements idx_bits n)._idxs i = n) := by
  have h1 : ∀ i : Fin max_idxs, (a.addElements idx_bits n)._idxs i = a._idxs i + n := by
    intro i
    rw [Indices.addElements_apply, wrapSigned_of_fits idx_bits hb _ (hfit i)]
  refine ⟨h1, ?_⟩
  intro i h0
  rw [h1, h0, zero_add]

theorem Indices.addElements_slots_witness :
    (0 < 64) ∧
    (∀ i : Fin 4, fitsSigned 64 ((Indices.ofList [1, 2] : Indices 4)._idxs i + 3)) ∧
    (∀ i : Fin 4, ((Indices.ofList [1, 2] : Indices 4).addElements 64 3)._idxs i =
      (Indices.ofList [1, 2] : Indices 4)._idxs i + 3) ∧
    ((Indices.ofList [1, 2] : Indices 4).addElements 64 3)._idxs 3 = 3 :=
  ⟨by decide, by decide,
   (Indices.addElements_slots 64 (by decide) (Indices.ofList [1, 2]) 3 (by decide)).1,
   by decide⟩

/-! ## Theorems: initialising `Indices` -/

theorem list_getD_of_get? (l : List Int) (i : Nat) (x : Int) (h : l.get? i = some x) :
    l.getD i 0 = x := by
  simp [List.getD, List.get?_eq_getElem?] at h ⊢
  simp [h]

theorem list_get?_lt (l : List Int) (i : Nat) (x : Int) (h : l.get? i = some x) :
    i < l.length := by
  by_contra hc
  have : l.get? i = none := List.get?_eq_none.2 (by omega)
  rw [this] at h
  simp at h

/-- The loop of `setFromInitList` writes the listed values from position `i` on and
leaves every other slot as it was. -/
theorem Indices.setFromInitListFrom_apply {n : Nat} (src : List Int) (a : Indices n) (i : Nat)
    (h : i + src.length ≤ n) (j : Fin n) :
    (Indices.setFromInitListFrom a src i)._idxs j =
      if i ≤ j.val ∧ j.val < i + src.length then src.getD (j.val - i) 0 else a._idxs j := by
  induction src generalizing a i with
  | nil =>
    have : ¬ (i ≤ j.val ∧ j.val < i + ([] : List Int).length) := by
      simp only [List.length_nil]
      omega
    rw [if_neg this]
    rfl
  | cons idx rest ih =>
    simp only [List.length_cons] at h
    have hi : i < n := by omega
    simp only [Indices.setFromInitListFrom, dif_pos hi]
    rw [ih _ (i + 1) (by omega)]
    by_cases hji : j.val = i
    · have c1 : ¬ (i + 1 ≤ j.val ∧ j.val < i + 1 + rest.length) := by omega
      have c2 : i ≤ j.val ∧ j.val < i + (idx :: rest).length := by
        simp only [List.length_cons]
        omega
      have hj : j = ⟨i, hi⟩ := Fin.ext hji
      rw [if_neg c1, if_pos c2, hji, Nat.sub_self]
      simp [Indices.set, hj]
    · have hne : j ≠ ⟨i, hi⟩ := fun hh => hji (by rw [hh])
      by_cases c1 : i + 1 ≤ j.val ∧ j.val < i + 1 + rest.length
      · have c2 : i ≤ j.val ∧ j.val < i + (idx :: rest).length := by
          simp only [List.length_cons]
          omega
        rw [if_pos c1, if_pos c2]
        have hsub : j.val - i = (j.val - (i + 1)) + 1 := by omega
        rw [hsub]
        rfl
      · have c2 : ¬ (i ≤ j.val ∧ j.val < i + (idx :: rest).length) := by
          simp only [List.length_cons]
          omega
        rw [if_neg c1, if_neg c2]
        simp [Indices.set, hne]

/-- What `setFromInitList` leaves in an object: the listed values in the leading
slots, and in every other slot the value that was there before. -/
theorem Indices.setFromInitList_apply {n : Nat} (a : Indices n) (src : List Int)
    (h : src.length < n) :
    ∃ r, a.setFromInitList src = some r ∧
      ∀ j : Fin n, r._idxs j = if j.val < src.length then src.getD j.val 0 else a._idxs j := by
  refine ⟨Indices.setFromInitListFrom a src 0, by simp [Indices.setFromInitList, h], ?_⟩
  intro j
  rw [Indices.setFromInitListFrom_apply src a 0 (by omega) j]
  simp

/-- What `setFromVec` leaves in an object: the values of the sequence in the leading
slots and 0 in every other slot. -/
theorem Indices.setFromVec_apply {n : Nat} (a : Indices n) (src : List Int)
    (h : src.length < n) :
    ∃ r, a.setFromVec src = some r ∧
      ∀ j : Fin n, r._idxs j = if j.val < src.length then src.getD j.val 0 else 0 := by
  refine ⟨(List.finRange n).foldl
    (fun acc i => acc.set i (if i.val < src.length then src.getD i.val 0 else 0)) a, ?_, ?_⟩
  · simp only [Indices.setFromVec, h, if_true]
  · intro j
    exact Indices.foldl_set_fun_all
      (fun i => if i.val < src.length then src.getD i.val 0 else 0) a j

/-- What `setFromArray` leaves in an object: the first `nelems` elements of the
array in the leading slots and 0 in every other slot. -/
theorem Indices.setFromArray_apply {n : Nat} (a : Indices n) (nelems : Int) (arr : Nat → Int)
    (h : nelems < (n : Int)) :
    ∃ r, a.setFromArray nelems arr = some r ∧
      ∀ j : Fin n, r._idxs j = if (j.val : Int) < nelems then arr j.val else 0 := by
  refine ⟨(List.finRange n).foldl
    (fun acc i => acc.set i (if (i.val : Int) < nelems then arr i.val else 0)) a, ?_, ?_⟩
  · simp only [Indices.setFromArray, h, if_true]
  · intro j
    exact Indices.foldl_set_fun_all
      (fun i => if (i.val : Int) < nelems then arr i.val else 0) a j

/-- C13: for a source of `n < max_idxs` values (the capacity precondition of the
code), an `Indices` constructed from a sequence, from an initializer list or
from an array with count `n` holds `src[i]` in every slot `i < n` and 0 in every
other slot; constructed from a constant `v` it holds `v` in every slot;
default-constructed it holds 0 in every slot. -/
theorem Indices.constructors_slots {max_idxs : Nat} (src : List Int)
    (hsrc : src.length < max_idxs) (nelems : Int) (arr : Nat → Int)
    (hn : nelems < (max_idxs : Int)) (v : Int) :
    (∃ r : Indices max_idxs, Indices.ofVec src = some r ∧
      (∀ (i : Fin max_idxs) (x : Int), src.get? i.val = some x → r._idxs i = x) ∧
      (∀ i : Fin max_idxs, src.length ≤ i.val → r._idxs i = 0)) ∧
    (∃ r : Indices max_idxs, Indices.ofInitList src = some r ∧
      (∀ (i : Fin max_idxs) (x : Int), src.get? i.val = some x → r._idxs i = x) ∧
      (∀ i : Fin max_idxs, src.length ≤ i.val → r._idxs i = 0)) ∧
    (∃ r : Indices max_idxs, Indices.ofArray nelems arr = some r ∧
      (∀ i : Fin max_idxs, (i.val : Int) < nelems → r._idxs i = arr i.val) ∧
      (∀ i : Fin max_idxs, nelems ≤ (i.val : Int) → r._idxs i = 0)) ∧
    (∀ i : Fin max_idxs, (Indices.ofConst v : Indices max_idxs)._idxs i = v) ∧
    (∀ i : Fin max_idxs, (Indices.zero : Indices max_idxs)._idxs i = 0) := by
  refine ⟨?_, ?_, ?_, fun i => Indices.ofConst_apply v i, fun i => rfl⟩
  · obtain ⟨r, hr, hs⟩ := Indices.setFromVec_apply Indices.zero src hsrc
    refine ⟨r, hr, ?_, ?_⟩
    · intro i x hx
      rw [hs, if_pos (list_get?_lt src i.val x hx), list_getD_of_get? src i.val x hx]
    · intro i hi
      rw [hs, if_neg (by omega)]
  · obtain ⟨r, hr, hs⟩ := Indices.setFromInitList_apply Indices.zero src hsrc
    refine ⟨r, hr, ?_, ?_⟩
    · intro i x hx
      rw [hs, if_pos (list_get?_lt src i.val x hx), list_getD_of_get? src i.val x hx]
    · intro i hi
      rw [hs, if_neg (by omega)]
      rfl
  · obtain ⟨r, hr, hs⟩ := Indices.setFromArray_apply Indices.zero nelems arr hn
    refine ⟨r, hr, ?_, ?_⟩
    · intro i hi
      rw [hs, if_pos hi]
    · intro i hi
      rw [hs, if_neg (by omega)]

theorem Indices.constructors_slots_witness :
    ([1, 2] : List Int).length < 4 ∧ ((2 : Int) < ((4 : Nat) : Int)) ∧
    (∃ r : Indices 4, Indices.ofInitList [1, 2] = some r ∧
      (∀ (i : Fin 4) (x : Int), ([1, 2] : List Int).get? i.val = some x → r._idxs i = x) ∧
      (∀ i : Fin 4, ([1, 2] : List Int).length ≤ i.val → r._idxs i = 0)) :=
  ⟨by decide, by decide,
   (Indices.constructors_slots [1, 2] (by decide) 2 (fun _ => 0) (by decide) 0).2.1⟩

/-! ## Theorems: the setters of `Indices` in either build -/

/-- C18, the code on an object that is not fresh: on an object whose four slots hold
7, `setFromInitList({1, 2})` leaves `[1, 2, 7, 7]`, whereas `setFromVec` with the
same values leaves `[1, 2, 0, 0]`. -/
theorem Indices.setFromInitList_keeps_tail :
    ((Indices.ofConst 7 : Indices 4).setFromInitList [1, 2]).map
        (fun r => (List.finRange 4).map r._idxs) = some [1, 2, 7, 7] ∧
    ((Indices.ofConst 7 : Indices 4).setFromVec [1, 2]).map
        (fun r => (List.finRange 4).map r._idxs) = some [1, 2, 0, 0] := by
  decide

/-! ## Theorems: `ScanIndices`, continued -/

/-- C17: a default-constructed `ScanIndices` has `begin = end = 0`,
`step = group_size = 1` and `start = stop = index = 0` in every one of the
`max_idxs` slots. -/
theorem ScanIndices.new_slots {max_idxs : Nat} (i : Fin max_idxs) :
    (ScanIndices.new : ScanIndices max_idxs).begin._idxs i = 0 ∧
    (ScanIndices.new : ScanIndices max_idxs).end_._idxs i = 0 ∧
    (ScanIndices.new : ScanIndices max_idxs).step._idxs i = 1 ∧
    (ScanIndices.new : ScanIndices max_idxs).group_size._idxs i = 1 ∧
    (ScanIndices.new : ScanIndices max_idxs).start._idxs i = 0 ∧
    (ScanIndices.new : ScanIndices max_idxs).stop._idxs i = 0 ∧
    (ScanIndices.new : ScanIndices max_idxs).index._idxs i = 0 := by
  simp only [ScanIndices.new, Indices.ofConst_apply]
  exact ⟨trivial, trivial, trivial, trivial, trivial, trivial, trivial⟩

/-! ## Theorems: `initFromOuter` on objects in memory -/

/-- The object the call is made on ends as `initFromOuter` of the values the two
objects had before the call, also when `outer` is that same object: the
members read from `outer` (`start`, `stop`, `index`) are not changed by the
assignments that precede their reading. -/
theorem ScanIndices.initFromOuterAt_child {n : Nat} (mem : Nat → ScanIndices n)
    (child outer : Nat) :
    ScanIndices.initFromOuterAt mem child outer child =
      (mem child).initFromOuter (mem outer) := by
  by_cases h : outer = child
  · subst h
    simp [ScanIndices.initFromOuterAt, ScanIndices.initFromOuter]
  · simp [ScanIndices.initFromOuterAt, ScanIndices.initFromOuter, Function.update_noteq h]

/-- The call writes to no object other than the one it is made on. -/
theorem ScanIndices.initFromOuterAt_other {n : Nat} (mem : Nat → ScanIndices n)
    (child outer a : Nat) (h : a ≠ child) :
    ScanIndices.initFromOuterAt mem child outer a = mem a := by
  simp [ScanIndices.initFromOuterAt, Function.update_noteq h]

/-- C20, as amended: `initFromOuter` changes only `begin`, `end`, `start`, `stop`
and `index` of the object it is called on.  For every memory and every two
addresses `child` and `outer`, the child's `step` and `group_size` after the
call are what they were before, every object at another address than the
child's is unchanged, and so `outer` is unchanged when it is another object
than the child.  When `outer` is the child itself, its `begin` and `end` are
overwritten with its `start` and `stop`, and it is left as it was exactly when
it already had `begin == start` and `end == stop`. -/
theorem ScanIndices.initFromOuterAt_frame {max_idxs : Nat}
    (mem : Nat → ScanIndices max_idxs) (child outer : Nat) :
    (ScanIndices.initFromOuterAt mem child outer child).step = (mem child).step ∧
    (ScanIndices.initFromOuterAt mem child outer child).group_size = (mem child).group_size ∧
    (∀ i : Fin max_idxs,
      (ScanIndices.initFromOuterAt mem child outer child).step._idxs i =
        (mem child).step._idxs i ∧
      (ScanIndices.initFromOuterAt mem child outer child).group_size._idxs i =
        (mem child).group_size._idxs i) ∧
    (∀ a : Nat, a ≠ child → ScanIndices.initFromOuterAt mem child outer a = mem a) ∧
    (outer ≠ child → ScanIndices.initFromOuterAt mem child outer outer = mem outer) ∧
    ScanIndices.initFromOuterAt mem child outer child =
      { begin := (mem outer).start, end_ := (mem outer).stop, step := (mem child).step,
        group_size := (mem child).group_size, start := (mem outer).start,
        stop := (mem outer).stop, index := (mem outer).index } ∧
    (ScanIndices.initFromOuterAt mem child child child).begin = (mem child).start ∧
    (ScanIndices.initFromOuterAt mem child child child).end_ = (mem child).stop ∧
    (ScanIndices.initFromOuterAt mem child child child = mem child ↔
      (mem child).begin = (mem child).start ∧ (mem child).end_ = (mem child).stop) := by
  have hc := ScanIndices.initFromOuterAt_child mem child outer
  have hs := ScanIndices.initFromOuterAt_child mem child child
  refine ⟨?_, ?_, ?_, ?_, ?_, ?_, ?_, ?_, ?_⟩
  · rw [hc]
    rfl
  · rw [hc]
    rfl
  · intro i
    rw [hc]
    exact ⟨rfl, rfl⟩
  · intro a ha
    exact ScanIndices.initFromOuterAt_other mem child outer a ha
  · intro ho
    exact ScanIndices.initFromOuterAt_other mem child outer outer ho
  · rw [hc]
    rfl
  · rw [hs]
    rfl
  · rw [hs]
    rfl
  · rw [hs]
    constructor
    · intro h
      have h1 : ((mem child).initFromOuter (mem child)).begin = (mem child).begin := by rw [h]
      have h2 : ((mem child).initFromOuter (mem child)).end_ = (mem child).end_ := by rw [h]
      exact ⟨h1.symm, h2.symm⟩
    · rintro ⟨h1, h2⟩
      cases hm : mem child with
      | mk b e s g st sp ix =>
        rw [hm] at h1 h2
        simp only at h1 h2
        simp only [ScanIndices.initFromOuter, ScanIndices.mk.injEq, and_true, true_and]
        exact ⟨h1.symm, h2.symm⟩

theorem ScanIndices.initFromOuterAt_frame_witness :
    (1 ≠ 0) ∧
    ScanIndices.initFromOuterAt (sampleMem 4) 0 1 1 = sampleMem 4 1 ∧
    (2 ≠ 0) ∧
    ScanIndices.initFromOuterAt (sampleMem 4) 0 1 2 = sampleMem 4 2 :=
  ⟨by decide,
   (ScanIndices.initFromOuterAt_frame (sampleMem 4) 0 1).2.2.2.2.1 (by decide),
   by decide,
   (ScanIndices.initFromOuterAt_frame (sampleMem 4) 0 1).2.2.2.1 2 (by decide)⟩

/-- C20 as stated fails when `outer` is the child itself: for an object with total
range `[0, 16)` and active sub-range `[4, 10)`, `s.initFromOuter(s)` leaves
`s.begin = 4` and `s.end = 10`, so the object bound to `outer` is modified. -/
theorem ScanIndices.initFromOuterAt_alias_counterexample :
    (sampleMem 4 1).begin._idxs 0 = 0 ∧
    (ScanIndices.initFromOuterAt (sampleMem 4) 1 1 1).begin._idxs 0 = 4 ∧
    (sampleMem 4 1).end_._idxs 0 = 16 ∧
    (ScanIndices.initFromOuterAt (sampleMem 4) 1 1 1).end_._idxs 0 = 10 ∧
    (sampleMem 4 1).step._idxs 0 = 1 ∧
    (ScanIndices.initFromOuterAt (sampleMem 4) 1 1 1).step._idxs 0 = 1 := by
  decide

/-! ## Theorems: `getStepDim` and `areDimsSame` -/

theorem Grid.getStepDimFrom_eq_none (l : List IndexExpr) :
    Grid.getStepDimFrom l = none ↔ ∀ d ∈ l, d._type ≠ IndexType.STEP_INDEX := by
  induction l with
  | nil => simp [Grid.getStepDimFrom]
  | cons x l ih =>
    by_cases hx : x._type = IndexType.STEP_INDEX
    · simp [Grid.getStepDimFrom, hx]
    · simp [Grid.getStepDimFrom, hx, ih]

theorem Grid.getStepDimFrom_eq_some (l : List IndexExpr) (d : IndexExpr) :
    Grid.getStepDimFrom l = some d ↔
      ∃ pre post, l = pre ++ d :: post ∧ d._type = IndexType.STEP_INDEX ∧
        ∀ e ∈ pre, e._type ≠ IndexType.STEP_INDEX := by
  induction l with
  | nil => simp [Grid.getStepDimFrom]
  | cons x l ih =>
    by_cases hx : x._type = IndexType.STEP_INDEX
    · simp only [Grid.getStepDimFrom, hx, if_true, Option.some.injEq]
      constructor
      · intro h
        subst h
        exact ⟨[], l, rfl, hx, by simp⟩
      · rintro ⟨pre, post, hl, _, hpre⟩
        cases pre with
        | nil =>
          simp only [List.nil_append, List.cons.injEq] at hl
          exact hl.1
        | cons y pre =>
          simp only [List.cons_append, List.cons.injEq] at hl
          exact absurd (hl.1 ▸ hx) (hpre y (List.mem_cons_self _ _))
    · simp only [Grid.getStepDimFrom, hx, if_false, ih]
      constructor
      · rintro ⟨pre, post, hl, hd, hpre⟩
        refine ⟨x :: pre, post, by rw [hl]; rfl, hd, ?_⟩
        intro e he
        rcases List.mem_cons.1 he with h | h
        · rw [h]
          exact hx
        · exact hpre e h
      · rintro ⟨pre, post, hl, hd, hpre⟩
        cases pre with
        | nil =>
          simp only [List.nil_append, List.cons.injEq] at hl
          exact absurd (hl.1 ▸ hd) hx
        | cons y pre =>
          simp only [List.cons_append, List.cons.injEq] at hl
          exact ⟨pre, post, hl.2, hd, fun e he => hpre e (List.mem_cons_of_mem _ he)⟩

theorem Grid.getStepDimFrom_eq_head (l : List IndexExpr) :
    Grid.getStepDimFrom l =
      (l.filter (fun d => decide (d._type = IndexType.STEP_INDEX))).head? := by
  induction l with
  | nil => rfl
  | cons x l ih =>
    by_cases hx : x._type = IndexType.STEP_INDEX
    · simp [Grid.getStepDimFrom, hx, List.filter_cons]
    · simp [Grid.getStepDimFrom, hx, List.filter_cons, ih]

/-- C19: `getStepDim` returns null iff no dimension of the grid has type STEP;
otherwise it returns the first dimension of type STEP in list order (every
dimension before it has another type), and when the list has at most one
dimension of type STEP that dimension is the only one. -/
theorem Grid.getStepDim_first_step (g : Grid) :
    (g.getStepDim = none ↔ ∀ d ∈ g._dims, d._type ≠ IndexType.STEP_INDEX) ∧
    (∀ d : IndexExpr, g.getStepDim = some d ↔
      ∃ pre post, g._dims = pre ++ d :: post ∧ d._type = IndexType.STEP_INDEX ∧
        ∀ e ∈ pre, e._type ≠ IndexType.STEP_INDEX) ∧
    ((g._dims.filter (fun d => decide (d._type = IndexType.STEP_INDEX))).length ≤ 1 →
      ∀ d : IndexExpr, g.getStepDim = some d →
        g._dims.filter (fun d => decide (d._type = IndexType.STEP_INDEX)) = [d]) := by
  refine ⟨Grid.getStepDimFrom_eq_none g._dims, Grid.getStepDimFrom_eq_some g._dims, ?_⟩
  intro hle d hd
  unfold Grid.getStepDim at hd
  rw [Grid.getStepDimFrom_eq_head] at hd
  cases hf : g._dims.filter (fun d => decide (d._type = IndexType.STEP_INDEX)) with
  | nil =>
    rw [hf] at hd
    simp at hd
  | cons y ys =>
    rw [hf] at hd hle
    simp only [List.head?_cons, Option.some.injEq] at hd
    simp only [List.length_cons] at hle
    have : ys = [] := List.length_eq_zero.1 (by omega)
    rw [hd, this]

theorem Grid.getStepDim_first_step_witness :
    ((sampleGrid._dims.filter
        (fun d => decide (d._type = IndexType.STEP_INDEX))).length ≤ 1) ∧
    sampleGrid.getStepDim = some ⟨"t", IndexType.STEP_INDEX⟩ ∧
    sampleGrid._dims.filter (fun d => decide (d._type = IndexType.STEP_INDEX)) =
      [⟨"t", IndexType.STEP_INDEX⟩] :=
  ⟨by decide, by decide,
   (Grid.getStepDim_first_step sampleGrid).2.2 (by decide) ⟨"t", IndexType.STEP_INDEX⟩
     (by decide)⟩

theorem Grid.areDimsSameFrom_iff (isSame : IndexExpr → IndexExpr → Bool)
    (otherDims ds : List IndexExpr) (i : Nat) :
    Grid.areDimsSameFrom isSame otherDims ds i = true ↔
      ∀ (k : Nat) (d1 : IndexExpr), ds.get? k = some d1 →
        ∃ d2, otherDims.get? (i + k) = some d2 ∧ isSame d1 d2 = true := by
  induction ds generalizing i with
  | nil => simp [Grid.areDimsSameFrom]
  | cons dim ds ih =>
    constructor
    · intro h k d1 hk
      rw [Grid.areDimsSameFrom] at h
      cases ho : otherDims.get? i with
      | none =>
        rw [ho] at h
        exact absurd h (by simp)
      | some d2 =>
        rw [ho] at h
        by_cases hs : isSame dim d2 = true
        · have h2 : Grid.areDimsSameFrom isSame otherDims ds (i + 1) = true := by
            simpa [hs] using h
          cases k with
          | zero =>
            simp only [List.get?_cons_zero, Option.some.injEq] at hk
            subst hk
            exact ⟨d2, ho, hs⟩
          | succ k =>
            simp only [List.get?_cons_succ] at hk
            obtain ⟨d3, h3, h4⟩ := (ih (i + 1)).1 h2 k d1 hk
            have e : i + (k + 1) = i + 1 + k := by omega
            exact ⟨d3, by rw [e]; exact h3, h4⟩
        · exact absurd h (by simp [hs])
    · intro h
      rw [Grid.areDimsSameFrom]
      obtain ⟨d2, h2, hs⟩ := h 0 dim rfl
      have h2b : otherDims.get? i = some d2 := h2
      rw [h2b]
      have h3 : Grid.areDimsSameFrom isSame otherDims ds (i + 1) = true := by
        apply (ih (i + 1)).2
        intro k d1 hk
        obtain ⟨d3, h3, h4⟩ := h (k + 1) d1 hk
        have e : i + (k + 1) = i + 1 + k := by omega
        exact ⟨d3, by rw [← e]; exact h3, h4⟩
      simp [hs, h3]

/-- C16: `g.areDimsSame(h)` is true iff the two dimension lists have the same
length and `isSame` holds of the two dimensions at every position; it is false
whenever the lengths differ and true for two zero-dimensional grids. -/
theorem Grid.areDimsSame_positions (isSame : IndexExpr → IndexExpr → Bool) (g h : Grid) :
    (Grid.areDimsSame isSame g h = true ↔
      g._dims.length = h._dims.length ∧
        ∀ (i : Nat) (d1 d2 : IndexExpr), g._dims.get? i = some d1 → h._dims.get? i = some d2 →
          isSame d1 d2 = true) ∧
    (g._dims.length = h._dims.length ∨ Grid.areDimsSame isSame g h = false) ∧
    Grid.areDimsSame isSame { g with _dims := [] } { h with _dims := [] } = true := by
  refine ⟨?_, ?_, ?_⟩
  · unfold Grid.areDimsSame
    by_cases hl : g._dims.length = h._dims.length
    · simp only [hl, ne_eq, not_true_eq_false, if_false, true_and,
        Grid.areDimsSameFrom_iff, Nat.zero_add]
      constructor
      · intro hh i d1 d2 h1 h2
        obtain ⟨d3, h3, h4⟩ := hh i d1 h1
        rw [h2] at h3
        simp only [Option.some.injEq] at h3
        rw [h3]
        exact h4
      · intro hh k d1 h1
        have hk : k < g._dims.length := by
          by_contra hc
          have : g._dims.get? k = none := List.get?_eq_none.2 (by omega)
          rw [this] at h1
          simp at h1
        have hk2 : k < h._dims.length := by omega
        cases h2 : h._dims.get? k with
        | none =>
          have := List.get?_eq_none.1 h2
          omega
        | some d2 => exact ⟨d2, rfl, hh k d1 d2 h1 h2⟩
    · simp [hl]
  · unfold Grid.areDimsSame
    by_cases hl : g._dims.length = h._dims.length
    · exact Or.inl hl
    · exact Or.inr (by simp [hl])
  · simp [Grid.areDimsSame, Grid.areDimsSameFrom]

/-! ## Theorems: `updateConstIndices` -/

theorem optMin_foldl_eq_some (xs : List (Option Int)) (acc : Option Int) (v : Int) :
    xs.foldl optMin acc = some v ↔
      (acc = some v ∨ some v ∈ xs) ∧ (∀ w, acc = some w → v ≤ w) ∧ ∀ w, some w ∈ xs → v ≤ w := by
  induction xs generalizing acc with
  | nil =>
    constructor
    · intro h
      simp only [List.foldl_nil] at h
      subst h
      simp
    · rintro ⟨h | h, _, _⟩
      · simpa using h
      · simp at h
  | cons x xs ih =>
    simp only [List.foldl_cons, ih, List.mem_cons]
    cases acc with
    | none =>
      cases x with
      | none => simp [optMin]
      | some b =>
        simp only [optMin]
        constructor
        · rintro ⟨h, h1, h2⟩
          refine ⟨?_, by simp, ?_⟩
          · rcases h with h | h
            · exact Or.inr (Or.inl h.symm)
            · exact Or.inr (Or.inr h)
          · intro w hw
            rcases hw with hw | hw
            · exact h1 w hw.symm
            · exact h2 w hw
        · rintro ⟨h, -, h2⟩
          refine ⟨?_, ?_, ?_⟩
          · rcases h with h | h | h
            · simp at h
            · exact Or.inl h.symm
            · exact Or.inr h
          · intro w hw
            exact h2 w (Or.inl hw.symm)
          · intro w hw
            exact h2 w (Or.inr hw)
    | some a =>
      cases x with
      | none => simp [optMin]
      | some b =>
        simp only [optMin, Option.some.injEq]
        constructor
        · rintro ⟨h, h1, h2⟩
          have hm := h1 _ rfl
          have ha : v ≤ a := le_trans hm (min_le_left a b)
          have hb : v ≤ b := le_trans hm (min_le_right a b)
          refine ⟨?_, ?_, ?_⟩
          · rcases h with h | h
            · rcases le_total a b with hab | hab
              · rw [min_eq_left hab] at h
                exact Or.inl h
              · rw [min_eq_right hab] at h
                exact Or.inr (Or.inl (by rw [h]))
            · exact Or.inr (Or.inr h)
          · intro w hw
            rw [← hw]; exact ha
          · intro w hw
            rcases hw with hw | hw
            · rw [hw]; exact hb
            · exact h2 w hw
        · rintro ⟨h, h1, h2⟩
          have ha : v ≤ a := h1 a rfl
          have hb : v ≤ b := h2 b (Or.inl rfl)
          refine ⟨?_, ?_, ?_⟩
          · rcases h with h | h | h
            · left
              rw [← h] at hb ⊢
              exact min_eq_left hb
            · left
              have hvb : v = b := h
              rw [hvb] at ha ⊢
              exact min_eq_right ha
            · exact Or.inr h
          · intro w hw
            rw [← hw]
            exact le_min ha hb
          · intro w hw
            exact h2 w (Or.inr hw)

theorem IntTuple.lookup_setMin (t : IntTuple) (dim d : String) (val : Int) :
    (t.setMin dim val).lookup d =
      if d = dim then
        some (match t.lookup dim with
              | none => val
              | some v => min v val)
      else t.lookup d := by
  simp only [IntTuple.setMin, IntTuple.lookup, lookupL_modifyL]

/-- One dimension of one access widens the two bounds of that dimension only. -/
theorem Grid.lookup_updateConstIndex (g : Grid) (dim : String) (o : Int) (d : String) :
    (g.updateConstIndex dim o)._maxIndices.lookup d =
        optMax (g._maxIndices.lookup d) (if dim = d then some o else none) ∧
    (g.updateConstIndex dim o)._minIndices.lookup d =
        optMin (g._minIndices.lookup d) (if dim = d then some o else none) := by
  simp only [Grid.updateConstIndex, IntTuple.lookup_setMax, IntTuple.lookup_setMin]
  by_cases h : dim = d
  · subst h
    simp only [if_true]
    constructor
    · cases g._maxIndices.lookup dim <;> rfl
    · cases g._minIndices.lookup dim <;> rfl
  · have h2 : ¬ d = dim := fun hh => h hh.symm
    simp only [h, h2, if_false]
    constructor
    · cases g._maxIndices.lookup d <;> rfl
    · cases g._minIndices.lookup d <;> rfl

theorem Grid.lookup_foldl_updateConstIndex (es : List (String × Int)) (g : Grid) (d : String) :
    (es.foldl (fun g2 i => g2.updateConstIndex i.1 i.2) g)._maxIndices.lookup d =
        (es.map (fun e => if e.1 = d then some e.2 else none)).foldl optMax
          (g._maxIndices.lookup d) ∧
    (es.foldl (fun g2 i => g2.updateConstIndex i.1 i.2) g)._minIndices.lookup d =
        (es.map (fun e => if e.1 = d then some e.2 else none)).foldl optMin
          (g._minIndices.lookup d) := by
  induction es generalizing g with
  | nil => exact ⟨rfl, rfl⟩
  | cons e es ih =>
    simp only [List.foldl_cons, List.map_cons]
    have h1 := ih (g.updateConstIndex e.1 e.2)
    have h2 := Grid.lookup_updateConstIndex g e.1 e.2 d
    rw [h1.1, h1.2, h2.1, h2.2]
    exact ⟨rfl, rfl⟩

theorem Grid.updateConstIndicesAll_eq_foldl (accesses : List IntTuple) (g : Grid) :
    g.updateConstIndicesAll accesses =
      (accesses.flatMap (fun a => a._q)).foldl (fun g2 i => g2.updateConstIndex i.1 i.2) g := by
  induction accesses generalizing g with
  | nil => rfl
  | cons a as ih =>
    simp only [Grid.updateConstIndicesAll, List.foldl_cons, List.flatMap_cons, List.foldl_append]
    exact ih (g.updateConstIndices a)

theorem mem_offsets_of (es : List (String × Int)) (d : String) (w : Int) :
    some w ∈ es.map (fun e => if e.1 = d then some e.2 else none) ↔ (d, w) ∈ es := by
  simp only [List.mem_map]
  constructor
  · rintro ⟨e, he, h⟩
    by_cases hd : e.1 = d
    · simp only [hd, if_true, Option.some.injEq] at h
      rw [← hd, ← h]
      exact he
    · simp [hd] at h
  · intro h
    exact ⟨(d, w), h, by simp⟩

theorem mem_flatMap_q (accesses : List IntTuple) (d : String) (w : Int) :
    (d, w) ∈ accesses.flatMap (fun a => a._q) ↔ ∃ a ∈ accesses, (d, w) ∈ a._q := by
  simp only [List.mem_flatMap]

theorem Grid.maxIndices_after (g : Grid) (accesses : List IntTuple) (d : String) (v : Int) :
    (g.updateConstIndicesAll accesses)._maxIndices.lookup d = some v ↔
      (g._maxIndices.lookup d = some v ∨ ∃ a ∈ accesses, (d, v) ∈ a._q) ∧
      (∀ w : Int, g._maxIndices.lookup d = some w → w ≤ v) ∧
      (∀ a ∈ accesses, ∀ w : Int, (d, w) ∈ a._q → w ≤ v) := by
  rw [Grid.updateConstIndicesAll_eq_foldl, (Grid.lookup_foldl_updateConstIndex _ g d).1,
    optMax_foldl_eq_some]
  simp only [mem_offsets_of, mem_flatMap_q]
  constructor
  · rintro ⟨h1, h2, h3⟩
    exact ⟨h1, h2, fun a ha w hw => h3 w ⟨a, ha, hw⟩⟩
  · rintro ⟨h1, h2, h3⟩
    exact ⟨h1, h2, fun w ⟨a, ha, hw⟩ => h3 a ha w hw⟩

theorem Grid.minIndices_after (g : Grid) (accesses : List IntTuple) (d : String) (v : Int) :
    (g.updateConstIndicesAll accesses)._minIndices.lookup d = some v ↔
      (g._minIndices.lookup d = some v ∨ ∃ a ∈ accesses, (d, v) ∈ a._q) ∧
      (∀ w : Int, g._minIndices.lookup d = some w → v ≤ w) ∧
      (∀ a ∈ accesses, ∀ w : Int, (d, w) ∈ a._q → v ≤ w) := by
  rw [Grid.updateConstIndicesAll_eq_foldl, (Grid.lookup_foldl_updateConstIndex _ g d).2,
    optMin_foldl_eq_some]
  simp only [mem_offsets_of, mem_flatMap_q]
  constructor
  · rintro ⟨h1, h2, h3⟩
    exact ⟨h1, h2, fun a ha w hw => h3 w ⟨a, ha, hw⟩⟩
  · rintro ⟨h1, h2, h3⟩
    exact ⟨h1, h2, fun w ⟨a, ha, hw⟩ => h3 a ha w hw⟩

theorem option_eq_of_iff (o1 o2 : Option Int) (h : ∀ v : Int, o1 = some v ↔ o2 = some v) :
    o1 = o2 := by
  cases o1 with
  | none =>
    cases o2 with
    | none => rfl
    | some v => exact absurd ((h v).2 rfl) (by simp)
  | some v => exact ((h v).1 rfl).symm

/-- C15 (against the model of `updateConstIndices` written from the
specification): after a finite sequence of accesses has been passed to
`updateConstIndices`, `maxIndices` for a dimension is the largest and
`minIndices` the smallest of the bound recorded before (if any) and the offsets
used in that dimension; the result is the same for every order of the accesses;
a single call keeps every recorded dimension and only widens its bounds; on a
new grid the offsets -2, 0, 3, 1 in one dimension, in any order, give
`minIndices = -2` and `maxIndices = 3`. -/
theorem Grid.updateConstIndices_min_max (g : Grid) (accesses : List IntTuple) (d : String) :
    (∀ v : Int, (g.updateConstIndicesAll accesses)._maxIndices.lookup d = some v ↔
      (g._maxIndices.lookup d = some v ∨ ∃ a ∈ accesses, (d, v) ∈ a._q) ∧
      (∀ w : Int, g._maxIndices.lookup d = some w → w ≤ v) ∧
      (∀ a ∈ accesses, ∀ w : Int, (d, w) ∈ a._q → w ≤ v)) ∧
    (∀ v : Int, (g.updateConstIndicesAll accesses)._minIndices.lookup d = some v ↔
      (g._minIndices.lookup d = some v ∨ ∃ a ∈ accesses, (d, v) ∈ a._q) ∧
      (∀ w : Int, g._minIndices.lookup d = some w → v ≤ w) ∧
      (∀ a ∈ accesses, ∀ w : Int, (d, w) ∈ a._q → v ≤ w)) ∧
    (∀ accesses2 : List IntTuple, accesses.Perm accesses2 →
      (g.updateConstIndicesAll accesses2)._maxIndices.lookup d =
          (g.updateConstIndicesAll accesses)._maxIndices.lookup d ∧
      (g.updateConstIndicesAll accesses2)._minIndices.lookup d =
          (g.updateConstIndicesAll accesses)._minIndices.lookup d) ∧
    (∀ (indices : IntTuple) (v : Int), g._maxIndices.lookup d = some v →
      ∃ v2 : Int, (g.updateConstIndices indices)._maxIndices.lookup d = some v2 ∧ v ≤ v2) ∧
    (∀ (indices : IntTuple) (v : Int), g._minIndices.lookup d = some v →
      ∃ v2 : Int, (g.updateConstIndices indices)._minIndices.lookup d = some v2 ∧ v2 ≤ v) ∧
    (∀ (name : String) (isScratch : Bool) (dims : List IndexExpr) (l : List Int),
      l.Perm [-2, 0, 3, 1] →
      ((Grid.new name isScratch dims).updateConstIndicesAll
          (l.map (fun o => ⟨[(d, o)]⟩)))._minIndices.lookup d = some (-2) ∧
      ((Grid.new name isScratch dims).updateConstIndicesAll
          (l.map (fun o => ⟨[(d, o)]⟩)))._maxIndices.lookup d = some 3) := by
  refine ⟨Grid.maxIndices_after g accesses d, Grid.minIndices_after g accesses d, ?_, ?_, ?_, ?_⟩
  · intro accesses2 hp
    constructor
    · apply option_eq_of_iff
      intro v
      rw [Grid.maxIndices_after, Grid.maxIndices_after]
      simp only [hp.mem_iff]
    · apply option_eq_of_iff
      intro v
      rw [Grid.minIndices_after, Grid.minIndices_after]
      simp only [hp.mem_iff]
  · intro indices v hv
    have hone : g.updateConstIndices indices = g.updateConstIndicesAll [indices] := rfl
    rw [hone]
    cases hr : (g.updateConstIndicesAll [indices])._maxIndices.lookup d with
    | none =>
      exfalso
      have := (Grid.lookup_foldl_updateConstIndex indices._q g d).1
      have hres : (g.updateConstIndicesAll [indices])._maxIndices.lookup d =
          (indices._q.map (fun e => if e.1 = d then some e.2 else none)).foldl optMax
            (g._maxIndices.lookup d) := this
      rw [hr] at hres
      have hsome := (optMax_foldl_isSome
        (indices._q.map (fun e => if e.1 = d then some e.2 else none))
        (g._maxIndices.lookup d)).2 (Or.inl (by simp [hv]))
      rw [← hres] at hsome
      simp at hsome
    | some v2 =>
      exact ⟨v2, rfl, ((Grid.maxIndices_after g [indices] d v2).1 hr).2.1 v hv⟩
  · intro indices v hv
    have hone : g.updateConstIndices indices = g.updateConstIndicesAll [indices] := rfl
    rw [hone]
    cases hr : (g.updateConstIndicesAll [indices])._minIndices.lookup d with
    | none =>
      exfalso
      have hres : (g.updateConstIndicesAll [indices])._minIndices.lookup d =
          (indices._q.map (fun e => if e.1 = d then some e.2 else none)).foldl optMin
            (g._minIndices.lookup d) := (Grid.lookup_foldl_updateConstIndex indices._q g d).2
      rw [hr, hv] at hres
      have hgen : ∀ (xs : List (Option Int)) (a : Int), xs.foldl optMin (some a) ≠ none := by
        intro xs
        induction xs with
        | nil => intro a; simp
        | cons x xs ih =>
          intro a
          cases x with
          | none => exact ih a
          | some b => exact ih (min a b)
      exact hgen _ v hres.symm
    | some v2 =>
      exact ⟨v2, rfl, ((Grid.minIndices_after g [indices] d v2).1 hr).2.1 v hv⟩
  · intro name isScratch dims l hp
    have hmem : ∀ (w : Int), (∃ a ∈ l.map (fun o => (⟨[(d, o)]⟩ : IntTuple)), (d, w) ∈ a._q) ↔
        w ∈ ([-2, 0, 3, 1] : List Int) := by
      intro w
      rw [← hp.mem_iff]
      constructor
      · rintro ⟨a, ha, hw⟩
        obtain ⟨o, ho, rfl⟩ := List.mem_map.1 ha
        simp only [List.mem_singleton, Prod.mk.injEq, true_and] at hw
        rw [hw]
        exact ho
      · intro hw
        exact ⟨⟨[(d, w)]⟩, List.mem_map.2 ⟨w, hw, rfl⟩, by simp⟩
    have hnone1 : (Grid.new name isScratch dims)._minIndices.lookup d = none := rfl
    have hnone2 : (Grid.new name isScratch dims)._maxIndices.lookup d = none := rfl
    constructor
    · rw [Grid.minIndices_after]
      refine ⟨Or.inr ((hmem (-2)).2 (by simp)), ?_, ?_⟩
      · intro w hw
        rw [hnone1] at hw
        simp at hw
      · intro a ha w hw
        have := (hmem w).1 ⟨a, ha, hw⟩
        simp only [List.mem_cons, List.mem_singleton, List.not_mem_nil, or_false] at this
        omega
    · rw [Grid.maxIndices_after]
      refine ⟨Or.inr ((hmem 3).2 (by simp)), ?_, ?_⟩
      · intro w hw
        rw [hnone2] at hw
        simp at hw
      · intro a ha w hw
        have := (hmem w).1 ⟨a, ha, hw⟩
        simp only [List.mem_cons, List.mem_singleton, List.not_mem_nil, or_false] at this
        omega

theorem Grid.updateConstIndices_min_max_witness :
    List.Perm [3, 1, -2, 0] ([-2, 0, 3, 1] : List Int) ∧
    ((Grid.new "u" false []).updateConstIndicesAll
        (([3, 1, -2, 0] : List Int).map (fun o => ⟨[("x", o)]⟩)))._minIndices.lookup "x" =
      some (-2) ∧
    ((Grid.new "u" false []).updateConstIndicesAll
        (([3, 1, -2, 0] : List Int).map (fun o => ⟨[("x", o)]⟩)))._maxIndices.lookup "x" =
      some 3 :=
  ⟨by decide,
   (Grid.updateConstIndices_min_max (Grid.new "u" false []) [] "x").2.2.2.2.2
     "u" false [] [3, 1, -2, 0] (by decide)⟩

/-! ## Theorems: algebra of `minElements`/`maxElements` and order of the comparisons -/

theorem Indices.operator_eq_iff_eq {n : Nat} (a b : Indices n) :
    a.operator_eq b = true ↔ a = b := by
  unfold Indices.operator_eq
  rw [Indices.operator_eq_from_iff]
  constructor
  · intro h
    exact Indices.ext_idxs a b (fun i => h i (List.mem_finRange i))
  · intro h i _
    rw [h]

theorem Indices.minElements_comm {n : Nat} (a b : Indices n) :
    a.minElements b = b.minElements a := by
  apply Indices.ext_idxs
  intro i
  rw [Indices.minElements_apply, Indices.minElements_apply, min_comm]

theorem Indices.minElements_assoc {n : Nat} (a b c : Indices n) :
    (a.minElements b).minElements c = a.minElements (b.minElements c) := by
  apply Indices.ext_idxs
  intro i
  simp only [Indices.minElements_apply, min_assoc]

theorem Indices.minElements_self {n : Nat} (a : Indices n) : a.minElements a = a := by
  apply Indices.ext_idxs
  intro i
  rw [Indices.minElements_apply, min_self]

theorem Indices.maxElements_comm {n : Nat} (a b : Indices n) :
    a.maxElements b = b.maxElements a := by
  apply Indices.ext_idxs
  intro i
  rw [Indices.maxElements_apply, Indices.maxElements_apply, max_comm]

theorem Indices.maxElements_assoc {n : Nat} (a b c : Indices n) :
    (a.maxElements b).maxElements c = a.maxElements (b.maxElements c) := by
  apply Indices.ext_idxs
  intro i
  simp only [Indices.maxElements_apply, max_assoc]

theorem Indices.maxElements_self {n : Nat} (a : Indices n) : a.maxElements a = a := by
  apply Indices.ext_idxs
  intro i
  rw [Indices.maxElements_apply, max_self]

/-- C21: `minElements` and `maxElements` are each commutative, associative and
idempotent: the two sides are the same array, and `operator==` holds of them. -/
theorem Indices.minElements_maxElements_semilattice {max_idxs : Nat}
    (a b c : Indices max_idxs) :
    (a.minElements b = b.minElements a ∧
      (a.minElements b).minElements c = a.minElements (b.minElements c) ∧
      a.minElements a = a) ∧
    (a.maxElements b = b.maxElements a ∧
      (a.maxElements b).maxElements c = a.maxElements (b.maxElements c) ∧
      a.maxElements a = a) ∧
    ((a.minElements b).operator_eq (b.minElements a) = true ∧
      ((a.minElements b).minElements c).operator_eq (a.minElements (b.minElements c)) = true ∧
      (a.minElements a).operator_eq a = true) ∧
    ((a.maxElements b).operator_eq (b.maxElements a) = true ∧
      ((a.maxElements b).maxElements c).operator_eq (a.maxElements (b.maxElements c)) = true ∧
      (a.maxElements a).operator_eq a = true) := by
  refine ⟨⟨Indices.minElements_comm a b, Indices.minElements_assoc a b c,
      Indices.minElements_self a⟩,
    ⟨Indices.maxElements_comm a b, Indices.maxElements_assoc a b c,
      Indices.maxElements_self a⟩, ⟨?_, ?_, ?_⟩, ⟨?_, ?_, ?_⟩⟩
  · exact (Indices.operator_eq_iff_eq _ _).2 (Indices.minElements_comm a b)
  · exact (Indices.operator_eq_iff_eq _ _).2 (Indices.minElements_assoc a b c)
  · exact (Indices.operator_eq_iff_eq _ _).2 (Indices.minElements_self a)
  · exact (Indices.operator_eq_iff_eq _ _).2 (Indices.maxElements_comm a b)
  · exact (Indices.operator_eq_iff_eq _ _).2 (Indices.maxElements_assoc a b c)
  · exact (Indices.operator_eq_iff_eq _ _).2 (Indices.maxElements_self a)

/-- Over any sequence of slots exactly one of the three comparison loops succeeds. -/
theorem Indices.comparison_loops_trichotomy {n : Nat} (a b : Indices n) (l : List (Fin n)) :
    (Indices.operator_lt_from a b l = true ∧ Indices.operator_eq_from a b l = false ∧
        Indices.operator_gt_from a b l = false) ∨
    (Indices.operator_lt_from a b l = false ∧ Indices.operator_eq_from a b l = true ∧
        Indices.operator_gt_from a b l = false) ∨
    (Indices.operator_lt_from a b l = false ∧ Indices.operator_eq_from a b l = false ∧
        Indices.operator_gt_from a b l = true) := by
  induction l with
  | nil => simp [Indices.operator_lt_from, Indices.operator_eq_from, Indices.operator_gt_from]
  | cons x l ih =>
    rcases lt_trichotomy (a._idxs x) (b._idxs x) with h | h | h
    · have h1 : ¬ a._idxs x > b._idxs x := not_lt.2 (le_of_lt h)
      have h2 : a._idxs x ≠ b._idxs x := ne_of_lt h
      simp [Indices.operator_lt_from, Indices.operator_eq_from, Indices.operator_gt_from,
        h, h1, h2]
    · have h1 : ¬ a._idxs x < b._idxs x := by rw [h]; exact lt_irrefl _
      have h2 : ¬ a._idxs x > b._idxs x := by rw [h]; exact lt_irrefl _
      have h3 : ¬ b._idxs x < b._idxs x := lt_irrefl _
      simpa [Indices.operator_lt_from, Indices.operator_eq_from, Indices.operator_gt_from,
        h, h3] using ih
    · have h1 : ¬ a._idxs x < b._idxs x := not_lt.2 (le_of_lt h)
      have h2 : a._idxs x ≠ b._idxs x := ne_of_gt h
      have h3 : a._idxs x > b._idxs x := h
      simp [Indices.operator_lt_from, Indices.operator_eq_from, Indices.operator_gt_from,
        h1, h2, h3]

theorem Indices.operator_lt_from_cons {n : Nat} (a b : Indices n) (x : Fin n)
    (l : List (Fin n)) :
    Indices.operator_lt_from a b (x :: l) = true ↔
      a._idxs x < b._idxs x ∨ (a._idxs x = b._idxs x ∧ Indices.operator_lt_from a b l = true) := by
  rcases lt_trichotomy (a._idxs x) (b._idxs x) with h | h | h
  · simp [Indices.operator_lt_from, h]
  · have h1 : ¬ b._idxs x < b._idxs x := lt_irrefl _
    simp [Indices.operator_lt_from, h, h1]
  · have h1 : ¬ a._idxs x < b._idxs x := not_lt.2 (le_of_lt h)
    have h2 : a._idxs x ≠ b._idxs x := ne_of_gt h
    have h3 : a._idxs x > b._idxs x := h
    simp [Indices.operator_lt_from, h1, h2, h3]

/-- The loop of `operator<` is transitive over any sequence of slots. -/
theorem Indices.operator_lt_from_trans {n : Nat} (a b c : Indices n) (l : List (Fin n))
    (hab : Indices.operator_lt_from a b l = true) (hbc : Indices.operator_lt_from b c l = true) :
    Indices.operator_lt_from a c l = true := by
  induction l with
  | nil => simp [Indices.operator_lt_from] at hab
  | cons x l ih =>
    rw [Indices.operator_lt_from_cons] at hab hbc ⊢
    rcases hab with h1 | ⟨h1, h2⟩
    · rcases hbc with h3 | ⟨h3, _⟩
      · exact Or.inl (lt_trans h1 h3)
      · exact Or.inl (by rw [← h3]; exact h1)
    · rcases hbc with h3 | ⟨h3, h4⟩
      · exact Or.inl (by rw [h1]; exact h3)
      · exact Or.inr ⟨h1.trans h3, ih h2 h4⟩

/-- C22: the comparisons of `Indices` form a strict total order consistent with
equality: of `a < b`, `a == b`, `a > b` exactly one holds; `a > b` iff `b < a`;
`operator<` is transitive and irreflexive; `a == b` iff the arrays are equal,
so equal vectors compare alike with every third one. -/
theorem Indices.comparisons_strict_total_order {max_idxs : Nat} (a b c : Indices max_idxs) :
    ((a.operator_lt b = true ∧ a.operator_eq b = false ∧ a.operator_gt b = false) ∨
      (a.operator_lt b = false ∧ a.operator_eq b = true ∧ a.operator_gt b = false) ∨
      (a.operator_lt b = false ∧ a.operator_eq b = false ∧ a.operator_gt b = true)) ∧
    a.operator_gt b = b.operator_lt a ∧
    (a.operator_lt b = true → b.operator_lt c = true → a.operator_lt c = true) ∧
    a.operator_lt a = false ∧
    (a.operator_eq b = true ↔ a = b) ∧
    (a.operator_eq b = true → a.operator_lt c = b.operator_lt c ∧
      c.operator_lt a = c.operator_lt b) := by
  refine ⟨Indices.comparison_loops_trichotomy a b _, Indices.operator_gt_from_eq a b _,
    Indices.operator_lt_from_trans a b c _, ?_, Indices.operator_eq_iff_eq a b, ?_⟩
  · rcases Indices.comparison_loops_trichotomy a a (List.finRange max_idxs) with h | h | h
    · have he : a.operator_eq a = true := (Indices.operator_eq_iff_eq a a).2 rfl
      have hf : a.operator_eq a = false := h.2.1
      rw [he] at hf
      exact absurd hf (by simp)
    · exact h.1
    · exact h.1
  · intro h
    have hab : a = b := (Indices.operator_eq_iff_eq a b).1 h
    rw [hab]
    exact ⟨rfl, rfl⟩

theorem Indices.comparisons_strict_total_order_witness :
    (Indices.ofList [1, 2] : Indices 4).operator_lt (Indices.ofList [1, 3]) = true ∧
    (Indices.ofList [1, 3] : Indices 4).operator_lt (Indices.ofList [2, 0]) = true ∧
    (Indices.ofList [1, 2] : Indices 4).operator_lt (Indices.ofList [2, 0]) = true :=
  ⟨by decide, by decide,
   (Indices.comparisons_strict_total_order (Indices.ofList [1, 2] : Indices 4)
      (Indices.ofList [1, 3]) (Indices.ofList [2, 0])).2.2.1 (by decide) (by decide)⟩
end yask
